import Mathlib

/-!
# Verification of the `20-db` key-value storage engine

Shallow embedding of the Go sources `src/20-db/db.go`, `src/20-db/btree.go`
(`HashStringToInt`) and the WAL implementation (`NewWAL`, `Log`, `Recover`,
`Truncate`, `getLastSequence`).

Modelling decisions, stated once here:

* Go's `int` / `int64` are modelled as `Int` with explicit two's-complement
  wraparound (`wrap64`) at every operation where Go would wrap.
* A `*Node` pointer is modelled by the inductive `Node` with a `nil`
  constructor; a `*string` value handle is `Option String`; mutation is
  modelled by returning the updated structure.
* The WAL file is modelled as the list of its lines.  A line either
  unmarshals into a `WALOperation` (constructor `WALLine.record`) or fails to
  (`WALLine.junk`); this abstracts `encoding/json`, which is Go standard
  library code, not code of this repository.  The file system at a path is
  `Option (List WALLine)` (`none` = the file does not exist).
* I/O failure of the `Write`/`Sync` pair inside `WAL.Log` is modelled by the
  boolean input `ioOk`; on failure no line is durably appended but — exactly
  as in the Go code, where `w.seq++` precedes the write — the sequence
  counter stays incremented.  `time.Now().UnixNano()` is passed in as the
  `now` argument.
* `sort.Slice` inside `splitNode` sorts four items by strictly increasing
  key; it is modelled by a four-element insertion sort (`sort4`).  For
  pairwise distinct keys — the only situation that arises, and the only one
  Go's unstable sort determines — the two agree.
-/

namespace DB

/-- 64-bit two's-complement wraparound of a Go `int`. -/
def wrap64 (x : Int) : Int := (x + 2 ^ 63) % 2 ^ 64 - 2 ^ 63

/-- `HashStringToInt` from `btree.go`: DJB2 hash, `hash = hash*33 + char`
over the code points of the key, with 64-bit wraparound
(`hash<<5 + hash + int(char)` wraps identically to `hash*33 + int(char)`). -/
def HashStringToInt (key : String) : Int :=
  key.data.foldl (fun h c => wrap64 (h * 33 + (c.toNat : Int))) 5381

/-- The B-tree node of `btree.go` (order 4: up to 3 keys, up to 4 children).
`nil` models the null `*Node` pointer; field order follows the Go struct:
`cp1 key1 rp1 cp2 key2 rp2 cp3 key3 rp3 cp4 size`. -/
inductive Node where
  | nil : Node
  | node (cp1 : Node) (key1 : Int) (rp1 : Option String)
         (cp2 : Node) (key2 : Int) (rp2 : Option String)
         (cp3 : Node) (key3 : Int) (rp3 : Option String)
         (cp4 : Node) (size : Nat) : Node
  deriving Repr, DecidableEq

/-- A freshly allocated one-key leaf `&Node{key1: key, rp1: val, size: 1}`;
all other fields are Go zero values. -/
def leaf1 (key : Int) (val : Option String) : Node :=
  .node .nil key val .nil 0 none .nil 0 none .nil 1

/-- Whether a `*Node` is the null pointer. -/
def Node.isNil : Node → Bool
  | .nil => true
  | .node .. => false

/-- `size` field of a node (0 for the null pointer, never read in Go). -/
def Node.size : Node → Nat
  | .nil => 0
  | .node _ _ _ _ _ _ _ _ _ _ sz => sz

/-- `isLeaf` from `btree.go`: all four child pointers are nil. -/
def Node.isLeaf : Node → Bool
  | .nil => true
  | .node c1 _ _ c2 _ _ c3 _ _ c4 _ => c1.isNil && c2.isNil && c3.isNil && c4.isNil

/-- `splitResult` from `btree.go`. -/
structure SplitResult where
  promoted : Bool
  promotedKey : Int
  promotedVal : Option String
  newRight : Node
  deriving Repr, DecidableEq

/-- The zero `splitResult{}`. -/
def noSplit : SplitResult := ⟨false, 0, none, .nil⟩

/-- `insertKeyIntoNode` from `btree.go`: sorted insertion of a key/value pair
into a node with fewer than 3 keys (no-op on a full node, as in Go). -/
def insertKeyIntoNode (t : Node) (key : Int) (val : Option String) : Node :=
  match t with
  | .nil => .nil
  | .node c1 k1 r1 c2 k2 r2 c3 k3 r3 c4 sz =>
    if sz = 0 then .node c1 key val c2 k2 r2 c3 k3 r3 c4 1
    else if sz = 1 then
      if key < k1 then .node c1 key val c2 k1 r1 c3 k3 r3 c4 2
      else .node c1 k1 r1 c2 key val c3 k3 r3 c4 2
    else if sz = 2 then
      if key < k1 then .node c1 key val c2 k1 r1 c3 k2 r2 c4 3
      else if key < k2 then .node c1 k1 r1 c2 key val c3 k2 r2 c4 3
      else .node c1 k1 r1 c2 k2 r2 c3 key val c4 3
    else t

/-- Insertion-sort of the four `(key, value)` items collected by `splitNode`
(models `sort.Slice(items, items[i].k < items[j].k)`; coincides with it for
pairwise distinct keys). -/
def sort4 (a b c d : Int × Option String) :
    (Int × Option String) × (Int × Option String) ×
    (Int × Option String) × (Int × Option String) :=
  let p1 := if b.1 < a.1 then (b, a) else (a, b)
  let p2 := if c.1 < p1.1.1 then (c, p1.1, p1.2)
            else if c.1 < p1.2.1 then (p1.1, c, p1.2)
            else (p1.1, p1.2, c)
  if d.1 < p2.1.1 then (d, p2.1, p2.2.1, p2.2.2)
  else if d.1 < p2.2.1.1 then (p2.1, d, p2.2.1, p2.2.2)
  else if d.1 < p2.2.2.1 then (p2.1, p2.2.1, d, p2.2.2)
  else (p2.1, p2.2.1, p2.2.2, d)

/-- `splitNode` from `btree.go`: split a full node on inserting a fourth key.
The left node keeps the smallest item, a new right sibling gets the two
largest, the second-smallest is promoted.  When `afterChildIdx = some i` the
new child is spliced in after child `i` and the five children are divided
2/3 between the left node and the sibling; otherwise (leaf split) all child
pointers of the left node are cleared. -/
def splitNode (t : Node) (newKey : Int) (newVal : Option String)
    (newChild : Node) (afterChildIdx : Option Nat) : Node × SplitResult :=
  match t with
  | .nil => (.nil, noSplit)
  | .node c1 k1 r1 c2 k2 r2 c3 k3 r3 c4 _ =>
    let s := sort4 (k1, r1) (k2, r2) (k3, r3) (newKey, newVal)
    let i0 := s.1; let i1 := s.2.1; let i2 := s.2.2.1; let i3 := s.2.2.2
    match afterChildIdx with
    | some i =>
      -- children := [cp1,cp2,cp3,cp4,nil]; insert newChild at index i+1
      let d : Node × Node × Node × Node × Node :=
        if i = 0 then (c1, newChild, c2, c3, c4)
        else if i = 1 then (c1, c2, newChild, c3, c4)
        else if i = 2 then (c1, c2, c3, newChild, c4)
        else (c1, c2, c3, c4, newChild)
      let left := Node.node d.1 i0.1 i0.2 d.2.1 0 none .nil 0 none .nil 1
      let sibling := Node.node d.2.2.1 i2.1 i2.2 d.2.2.2.1 i3.1 i3.2 d.2.2.2.2 0 none .nil 2
      (left, ⟨true, i1.1, i1.2, sibling⟩)
    | none =>
      let left := Node.node .nil i0.1 i0.2 .nil 0 none .nil 0 none .nil 1
      let sibling := Node.node .nil i2.1 i2.2 .nil i3.1 i3.2 .nil 0 none .nil 2
      (left, ⟨true, i1.1, i1.2, sibling⟩)

/-- `insertPromotedKey` from `btree.go`: place a key promoted from child
`afterChildIdx`, with its new right sibling, into a node with 1 or 2 keys
(the `else` branch is Go's `// node.size == 2` code path). -/
def insertPromotedKey (t : Node) (key : Int) (val : Option String)
    (newRight : Node) (afterChildIdx : Nat) : Node :=
  match t with
  | .nil => .nil
  | .node c1 k1 r1 c2 k2 r2 c3 k3 r3 c4 sz =>
    if sz = 1 then
      if afterChildIdx = 0 then .node c1 key val newRight k1 r1 c2 k3 r3 c4 2
      else .node c1 k1 r1 c2 key val newRight k3 r3 c4 2
    else
      if afterChildIdx = 0 then .node c1 key val newRight k1 r1 c2 k2 r2 c3 3
      else if afterChildIdx = 1 then .node c1 k1 r1 c2 key val newRight k2 r2 c3 3
      else .node c1 k1 r1 c2 k2 r2 c3 key val newRight 3

/-- `insertKey` from `btree.go`.  Returns the updated subtree, the split
result propagated to the caller, and the amount `db.Size` was incremented
by (`db.Size++` happens inside `insertKey` in Go); the `*child == nil`
test is the explicit equality test on the child slot. -/
def insertKey : Node → Int → Option String → Node × SplitResult × Nat
  | .nil, _, _ => (.nil, noSplit, 0)
  | t@(.node c1 k1 r1 c2 k2 r2 c3 k3 r3 c4 sz), key, val =>
    if t.isLeaf then
      if sz < 3 then (insertKeyIntoNode t key val, noSplit, 1)
      else
        let p := splitNode t key val .nil none
        (p.1, p.2, 1)
    else if key < k1 then
      if c1 = .nil then (.node (leaf1 key val) k1 r1 c2 k2 r2 c3 k3 r3 c4 sz, noSplit, 1)
      else
        let r := insertKey c1 key val
        let t' := Node.node r.1 k1 r1 c2 k2 r2 c3 k3 r3 c4 sz
        if r.2.1.promoted = false then (t', noSplit, r.2.2)
        else if sz < 3 then
          (insertPromotedKey t' r.2.1.promotedKey r.2.1.promotedVal r.2.1.newRight 0, noSplit, r.2.2)
        else
          let p := splitNode t' r.2.1.promotedKey r.2.1.promotedVal r.2.1.newRight (some 0)
          (p.1, p.2, r.2.2)
    else if sz = 1 ∨ key < k2 then
      if c2 = .nil then (.node c1 k1 r1 (leaf1 key val) k2 r2 c3 k3 r3 c4 sz, noSplit, 1)
      else
        let r := insertKey c2 key val
        let t' := Node.node c1 k1 r1 r.1 k2 r2 c3 k3 r3 c4 sz
        if r.2.1.promoted = false then (t', noSplit, r.2.2)
        else if sz < 3 then
          (insertPromotedKey t' r.2.1.promotedKey r.2.1.promotedVal r.2.1.newRight 1, noSplit, r.2.2)
        else
          let p := splitNode t' r.2.1.promotedKey r.2.1.promotedVal r.2.1.newRight (some 1)
          (p.1, p.2, r.2.2)
    else if sz = 2 ∨ key < k3 then
      if c3 = .nil then (.node c1 k1 r1 c2 k2 r2 (leaf1 key val) k3 r3 c4 sz, noSplit, 1)
      else
        let r := insertKey c3 key val
        let t' := Node.node c1 k1 r1 c2 k2 r2 r.1 k3 r3 c4 sz
        if r.2.1.promoted = false then (t', noSplit, r.2.2)
        else if sz < 3 then
          (insertPromotedKey t' r.2.1.promotedKey r.2.1.promotedVal r.2.1.newRight 2, noSplit, r.2.2)
        else
          let p := splitNode t' r.2.1.promotedKey r.2.1.promotedVal r.2.1.newRight (some 2)
          (p.1, p.2, r.2.2)
    else
      if c4 = .nil then (.node c1 k1 r1 c2 k2 r2 c3 k3 r3 (leaf1 key val) sz, noSplit, 1)
      else
        let r := insertKey c4 key val
        let t' := Node.node c1 k1 r1 c2 k2 r2 c3 k3 r3 r.1 sz
        if r.2.1.promoted = false then (t', noSplit, r.2.2)
        else if sz < 3 then
          (insertPromotedKey t' r.2.1.promotedKey r.2.1.promotedVal r.2.1.newRight 3, noSplit, r.2.2)
        else
          let p := splitNode t' r.2.1.promotedKey r.2.1.promotedVal r.2.1.newRight (some 3)
          (p.1, p.2, r.2.2)

/-- `searchKey` from `db.go` (with the string key replaced by its hash,
which Go recomputes identically at every level).  Note the descent: after
the three equality tests, a key greater than every tested separator falls
through to `cp4` regardless of `size` — unlike `Get` and `insertKey`. -/
def searchKey : Node → Int → Option Node
  | .nil, _ => none
  | t@(.node c1 k1 _ c2 k2 _ c3 k3 _ c4 sz), h =>
    if 1 ≤ sz ∧ k1 = h then some t
    else if 2 ≤ sz ∧ k2 = h then some t
    else if 3 ≤ sz ∧ k3 = h then some t
    else if 1 ≤ sz ∧ h < k1 then searchKey c1 h
    else if 2 ≤ sz ∧ h < k2 then searchKey c2 h
    else if 3 ≤ sz ∧ h < k3 then searchKey c3 h
    else searchKey c4 h

/-- The descent loop of `Get` from `db.go` on the hashed key (the Go loop
re-reads `node = child` and iterates; the recursion is the same function). -/
def Node.get : Node → Int → String × Bool
  | .nil, _ => ("", false)
  | .node c1 k1 r1 c2 k2 r2 c3 k3 r3 c4 sz, h =>
    if 1 ≤ sz ∧ k1 = h then match r1 with | none => ("", false) | some v => (v, true)
    else if 2 ≤ sz ∧ k2 = h then match r2 with | none => ("", false) | some v => (v, true)
    else if 3 ≤ sz ∧ k3 = h then match r3 with | none => ("", false) | some v => (v, true)
    else if h < k1 then Node.get c1 h
    else if sz = 1 ∨ h < k2 then Node.get c2 h
    else if sz = 2 ∨ h < k3 then Node.get c3 h
    else Node.get c4 h


/-- `WALOperation` from the WAL source: one JSON line of the log. -/
structure WALOperation where
  seq : Int
  op : String
  key : String
  value : String
  timestamp : Int
  deriving Repr, DecidableEq

/-- One line of the WAL file: either it unmarshals into a `WALOperation`
(`record`) or `json.Unmarshal` fails on it (`junk`). -/
inductive WALLine where
  | record (op : WALOperation) : WALLine
  | junk : WALLine
  deriving Repr, DecidableEq

/-- Result of `json.Unmarshal` on one scanned line. -/
def unmarshalLine : WALLine → Option WALOperation
  | .record op => some op
  | .junk => none

/-- The in-memory `WAL` struct: the durable file content at `filePath`
plus the `seq` counter (the `os.File` handle and mutex are not modelled;
this development is single-threaded, as the spec requires of callers). -/
structure WALState where
  lines : List WALLine
  seq : Int
  deriving Repr, DecidableEq

/-- The scan loop of `getLastSequence`: `lastSeq` starts at the zero value 0
and is raised to `op.Seq` whenever a line unmarshals and `op.Seq > lastSeq`. -/
def getLastSequenceLoop : List WALLine → Int → Int
  | [], last => last
  | l :: rest, last =>
    match unmarshalLine l with
    | some op => getLastSequenceLoop rest (if op.seq > last then op.seq else last)
    | none => getLastSequenceLoop rest last

/-- `NewWAL`: `os.OpenFile(path, O_APPEND|O_CREATE|O_WRONLY)` creates the
file when absent (so an absent file becomes the empty file), then
`wal.seq, _ = wal.getLastSequence()` scans it.  The open itself failing is
an environment error outside the model. -/
def NewWAL (fs : Option (List WALLine)) : WALState :=
  let lines := fs.getD []
  { lines := lines, seq := getLastSequenceLoop lines 0 }

/-- `WAL.Log`: increments `w.seq` (64-bit wraparound), marshals the record
(which cannot fail for this struct) and appends it followed by `\n`.
`ioOk = false` models the `Write`/`Sync` pair failing: the error is
returned and no line is durably appended, but the already-incremented
sequence counter keeps its new value, exactly as in the Go code. -/
def WALState.log (w : WALState) (operation key value : String) (now : Int)
    (ioOk : Bool) : WALState × Bool :=
  let s := wrap64 (w.seq + 1)
  if ioOk then
    ({ lines := w.lines ++ [.record ⟨s, operation, key, value, now⟩], seq := s }, true)
  else
    ({ w with seq := s }, false)

/-- The scan loop of `WAL.Recover`: append every line that unmarshals, in
file order, skipping the rest. -/
def recoverLoop : List WALLine → List WALOperation → List WALOperation
  | [], acc => acc
  | l :: rest, acc =>
    match unmarshalLine l with
    | some op => recoverLoop rest (acc ++ [op])
    | none => recoverLoop rest acc

/-- `WAL.Recover` as a function of the file system at `filePath`: an absent
file yields `([], nil error)`; otherwise every well-formed line is returned
in file order.  Read errors (`scanner.Err`) cannot occur in the model,
where the file content is given in full. -/
def Recover (fs : Option (List WALLine)) : Except String (List WALOperation) :=
  match fs with
  | none => .ok []
  | some lines => .ok (recoverLoop lines [])

/-- `WAL.Truncate`: reopen the path with `O_TRUNC` and reset `seq` to 0.
(The close/reopen failing is an environment error outside the model.) -/
def WALState.truncate (_ : WALState) : WALState := { lines := [], seq := 0 }

/-- The `KDB` struct from `db.go`. -/
structure KDB where
  head : Node
  size : Nat
  wal : Option WALState
  deriving Repr, DecidableEq

/-- `newKDB`: in-memory DB without WAL. -/
def newKDB : KDB := { head := .nil, size := 0, wal := none }

/-- `checkIsDuplicateKey` from `db.go`. -/
def KDB.checkIsDuplicateKey (db : KDB) (key : String) : Bool :=
  (searchKey db.head (HashStringToInt key)).isSome

/-- The `insert` method from `btree.go` at the `KDB` level: empty tree gets
a singleton root, otherwise `insertKey` runs and a promotion grows a new
root. -/
def KDB.insert (db : KDB) (key : Int) (val : Option String) : KDB :=
  match db.head with
  | .nil => { db with head := leaf1 key val, size := db.size + 1 }
  | h =>
    let r := insertKey h key val
    let db' := { db with head := r.1, size := db.size + r.2.2 }
    if r.2.1.promoted then
      { db' with head := (Node.node r.1 r.2.1.promotedKey r.2.1.promotedVal
          r.2.1.newRight 0 none .nil 0 none .nil 1) }
    else db'

/-- `Put` from `db.go`.  `now` is the timestamp `Log` would record and
`ioOk` whether the WAL append succeeds. -/
def KDB.put (db : KDB) (key val : String) (now : Int) (ioOk : Bool) :
    KDB × (Bool × String) :=
  if db.checkIsDuplicateKey key then (db, (false, val))
  else
    match db.wal with
    | some w =>
      let wr := w.log "PUT" key val now ioOk
      if wr.2 then
        ({ db with wal := some wr.1 }.insert (HashStringToInt key) (some val), (true, val))
      else
        ({ db with wal := some wr.1 }, (false, val))
    | none => (db.insert (HashStringToInt key) (some val), (true, val))

/-- `Get` from `db.go`. -/
def KDB.get (db : KDB) (key : String) : String × Bool :=
  db.head.get (HashStringToInt key)

/-- `recoverFromWAL` from `db.go`: recover the operations, disable the WAL,
replay every `PUT` through the internal `Put` path, restore the WAL. -/
def KDB.recoverFromWAL (db : KDB) : Except String KDB :=
  match db.wal with
  | none => .ok db
  | some w =>
    match Recover (some w.lines) with
    | .error e => .error e
    | .ok ops =>
      let replayed := ops.foldl
        (fun d op => if op.op = "PUT" then (d.put op.key op.value 0 true).1 else d)
        { db with wal := none }
      .ok { replayed with wal := some w }

/-- `newKDBWithWAL` from `db.go`: open/create the WAL at the path whose
content is `fs`, then replay it. -/
def newKDBWithWAL (fs : Option (List WALLine)) : Except String KDB :=
  (KDB.mk .nil 0 (some (NewWAL fs))).recoverFromWAL

/-- `Close` from `db.go`: closes the WAL file handle; no modelled state
changes. -/
def KDB.close (db : KDB) : KDB := db

/-- Sequential driver used by several claims: run `Put` (with succeeding
WAL appends and timestamp 0) for each key/value pair in order, and report
whether every call committed. -/
def putAll : KDB → List (String × String) → KDB × Bool
  | db, [] => (db, true)
  | db, kv :: rest =>
    let p := db.put kv.1 kv.2 0 true
    let q := putAll p.1 rest
    (q.1, p.2.1 && q.2)


/-! ## Specification-side definitions -/

/-- In-order traversal of the tree, as the ordering-invariant claim defines
it: leftmost child, `key1`, next child, `key2`, next child, `key3`, last
child, restricted to the occupied slots of the node. -/
def inorder : Node → List Int
  | .nil => []
  | .node c1 k1 _ c2 k2 _ c3 k3 _ c4 sz =>
    match sz with
    | 1 => inorder c1 ++ k1 :: inorder c2
    | 2 => inorder c1 ++ k1 :: (inorder c2 ++ k2 :: inorder c3)
    | 3 => inorder c1 ++ k1 :: (inorder c2 ++ k2 :: (inorder c3 ++ k3 :: inorder c4))
    | _ => []

/-- Height of the tree: 0 for nil, otherwise 1 + the height of the deepest
child. -/
def Node.height : Node → Nat
  | .nil => 0
  | .node c1 _ _ c2 _ _ c3 _ _ c4 _ =>
    1 + max (max c1.height c2.height) (max c3.height c4.height)

/-- Every key stored in an occupied slot of some node, with the same
`size`-guards `searchKey` uses when testing slots. -/
def allKeys : Node → List Int
  | .nil => []
  | .node c1 k1 _ c2 k2 _ c3 k3 _ c4 sz =>
    (if 1 ≤ sz then [k1] else []) ++ (if 2 ≤ sz then [k2] else [])
      ++ (if 3 ≤ sz then [k3] else [])
      ++ (allKeys c1 ++ (allKeys c2 ++ (allKeys c3 ++ allKeys c4)))

/-- Insertion into a (strictly) sorted list of keys. -/
def sortedInsert (k : Int) : List Int → List Int
  | [] => [k]
  | x :: xs => if k < x then k :: x :: xs else x :: sortedInsert k xs

/-- Strict lower bound (`none` = unbounded). -/
def lbnd : Option Int → Int → Prop
  | none, _ => True
  | some l, k => l < k

/-- Strict upper bound (`none` = unbounded). -/
def ubnd : Option Int → Int → Prop
  | none, _ => True
  | some h, k => k < h

/-- Ordering invariant used in the insertion proofs: sizes are 1–3, keys of
a node are strictly increasing and between the bounds, each child is
bounded by the neighbouring separators, and the child slots beyond
`size+1` are nil. -/
def Inv : Node → Option Int → Option Int → Prop
  | .nil, _, _ => True
  | .node c1 k1 _ c2 k2 _ c3 k3 _ c4 sz, lo, hi =>
    match sz with
    | 1 => lbnd lo k1 ∧ ubnd hi k1 ∧ Inv c1 lo (some k1) ∧ Inv c2 (some k1) hi
        ∧ c3 = .nil ∧ c4 = .nil
    | 2 => k1 < k2 ∧ lbnd lo k1 ∧ ubnd hi k2 ∧ Inv c1 lo (some k1)
        ∧ Inv c2 (some k1) (some k2) ∧ Inv c3 (some k2) hi ∧ c4 = .nil
    | 3 => k1 < k2 ∧ k2 < k3 ∧ lbnd lo k1 ∧ ubnd hi k3 ∧ Inv c1 lo (some k1)
        ∧ Inv c2 (some k1) (some k2) ∧ Inv c3 (some k2) (some k3) ∧ Inv c4 (some k3) hi
    | _ => False

/-- Decidable bound check for the claim-stated invariant. -/
def inRange (lo hi : Option Int) (k : Int) : Bool :=
  (match lo with | none => true | some l => decide (l < k)) &&
  (match hi with | none => true | some h => decide (k < h))

/-- The B-tree structural invariant exactly as the search claim states it:
keys within a node strictly increasing, leaf iff all children empty,
internal nodes have `size+1` non-empty children, child key ranges bounded
by the separators. -/
def wellFormed : Node → Option Int → Option Int → Bool
  | .nil, _, _ => true
  | .node c1 k1 _ c2 k2 _ c3 k3 _ c4 sz, lo, hi =>
    match sz with
    | 1 => inRange lo hi k1
        && ((c1.isNil && c2.isNil && c3.isNil && c4.isNil)
            || (!c1.isNil && !c2.isNil && c3.isNil && c4.isNil))
        && wellFormed c1 lo (some k1) && wellFormed c2 (some k1) hi
    | 2 => inRange lo hi k1 && inRange lo hi k2 && decide (k1 < k2)
        && ((c1.isNil && c2.isNil && c3.isNil && c4.isNil)
            || (!c1.isNil && !c2.isNil && !c3.isNil && c4.isNil))
        && wellFormed c1 lo (some k1) && wellFormed c2 (some k1) (some k2)
        && wellFormed c3 (some k2) hi
    | 3 => inRange lo hi k1 && inRange lo hi k2 && inRange lo hi k3
        && decide (k1 < k2) && decide (k2 < k3)
        && ((c1.isNil && c2.isNil && c3.isNil && c4.isNil)
            || (!c1.isNil && !c2.isNil && !c3.isNil && !c4.isNil))
        && wellFormed c1 lo (some k1) && wellFormed c2 (some k1) (some k2)
        && wellFormed c3 (some k2) (some k3) && wellFormed c4 (some k3) hi
    | _ => false

/-- The sequence numbers of the well-formed records of a WAL file. -/
def wfSeqs (lines : List WALLine) : List Int :=
  (lines.filterMap unmarshalLine).map WALOperation.seq


/-- Contract of `insertKey` on an ordered subtree: either no promotion and
the updated subtree carries the same bounds with the key merged into its
traversal, or a promotion whose key splits the bounds, with the two parts
and the promoted key together carrying the merged traversal. -/
def InsOk (t : Node) (lo hi : Option Int) (key : Int)
    (out : Node × SplitResult × Nat) : Prop :=
  (out.2.1.promoted = false ∧ Inv out.1 lo hi ∧
     inorder out.1 = sortedInsert key (inorder t))
  ∨ (out.2.1.promoted = true ∧ lbnd lo out.2.1.promotedKey ∧
     ubnd hi out.2.1.promotedKey ∧
     Inv out.1 lo (some out.2.1.promotedKey) ∧
     Inv out.2.1.newRight (some out.2.1.promotedKey) hi ∧
     inorder out.1 ++ out.2.1.promotedKey :: inorder out.2.1.newRight
       = sortedInsert key (inorder t))

/-! ## Concrete scenarios referenced by the claims -/

/-- Four `Put`s whose hashes are the consecutive integers 177622–177625
(the hashes of "1"–"4"), producing a root of size 1 whose right leaf holds
the two largest hashes. -/
def c1Db : KDB := (putAll newKDB [("1", "v1"), ("2", "v2"), ("3", "v3"), ("4", "v4")]).1

/-- A well-formed height-2 tree: root key 2, left leaf {1}, right leaf
{3,4}.  (Exactly the shape `insert 1;2;3;4` builds.) -/
def c2Tree : Node :=
  Node.node (leaf1 1 (some "x")) 2 (some "y")
    (Node.node .nil 3 (some "z") .nil 4 (some "w") .nil 0 none .nil 2)
    0 none .nil 0 none .nil 1

/-- Tree-level insertion of the hashes 1,2,3,4 in ascending order. -/
def c5Db : KDB :=
  (((newKDB.insert 1 (some "a")).insert 2 (some "b")).insert 3 (some "c")).insert 4 (some "d")

/-- A store with an attached WAL and one stored key (hash 5). -/
def c6Db : KDB := { head := leaf1 5 (some "x"), size := 1, wal := some ⟨[], 5⟩ }

/-- A WAL file holding a single well-formed record with sequence number -1. -/
def c9Lines : List WALLine := [.record ⟨-1, "PUT", "k", "v", 7⟩]

/-- First `Put` of the collision pair. -/
def c10S1 : KDB × (Bool × String) := newKDB.put "ab" "v1" 0 true

/-- Second `Put`, with a key whose hash collides with the first. -/
def c10S2 : KDB × (Bool × String) := c10S1.1.put "bA" "v2" 0 true

/-- Five pairwise distinct string keys whose last hash collides with the
fourth, and whose fourth hash is missed by the broken duplicate check. -/
def c3Keys : List (String × String) :=
  [("a_", "1"), ("a`", "2"), ("aa", "3"), ("ab", "4"), ("bA", "5")]


/-! ## Theorems -/

/-- C1 (code bug witness): in the reachable store `c1Db` (four committed
`Put`s), the hash of the key "3" is stored in a node of the tree, yet
`Put("3","v5")` returns `(true, "v5")` and grows the tree — the duplicate
check `searchKey` descends into `cp4` instead of the proper right child of
the size-1 root and misses the stored hash, so the promised duplicate-key
rejection does not happen. -/
theorem put_commits_already_stored_hash :
    (putAll newKDB [("1", "v1"), ("2", "v2"), ("3", "v3"), ("4", "v4")]).2 = true ∧
    HashStringToInt "3" ∈ allKeys c1Db.head ∧
    (c1Db.put "3" "v5" 0 true).2 = (true, "v5") ∧
    (c1Db.put "3" "v5" 0 true).1.size = c1Db.size + 1 := by decide

/-- C2 (code bug witness): `c2Tree` satisfies the full structural invariant
stated by the claim, stores the key 3, and yet `searchKey` returns absent
for 3: with the size-1 root, a target greater than `key1` falls through to
the nil `cp4` instead of descending into `cp2`. -/
theorem searchKey_misses_stored_key :
    wellFormed c2Tree none none = true ∧
    (3 : Int) ∈ allKeys c2Tree ∧
    searchKey c2Tree 3 = none ∧
    searchKey c2Tree 4 = none := by decide

/-- C4: round-trip durability on the concrete scenario of the claim.
Opening a store on a fresh (absent) WAL file, `Put("a","1")` commits;
after `Close`, reopening a store on the same file replays the single WAL
record so that `Get("a") = ("1", true)` with `Size = 1`, without any new
`Put`. -/
theorem wal_roundtrip_durability :
    ((newKDBWithWAL none).bind fun db0 =>
      let p := db0.put "a" "1" 0 true
      (newKDBWithWAL (some ((p.1.close.wal.map WALState.lines).getD []))).map fun db2 =>
        (p.2, db2.get "a", db2.size))
    = .ok ((true, "1"), ("1", true), 1) := by rfl

/-- C5: inserting keys with hashes 1,2,3,4 in ascending order into an empty
tree produces exactly the claimed shape: height 2, root holding the single
key 2, left leaf {1}, right leaf {3,4}, in-order traversal [1,2,3,4] and
`Size = 4`. -/
theorem insert_ascending_four_split_shape :
    c5Db.head =
      Node.node (Node.node .nil 1 (some "a") .nil 0 none .nil 0 none .nil 1) 2 (some "b")
        (Node.node .nil 3 (some "c") .nil 4 (some "d") .nil 0 none .nil 2)
        0 none .nil 0 none .nil 1 ∧
    c5Db.head.height = 2 ∧
    inorder c5Db.head = [1, 2, 3, 4] ∧
    c5Db.size = 4 := by decide

/-- C6: if a WAL is attached, the key is not flagged as duplicate and the
`Log` append fails, then `Put` returns `(false, value)` and the in-memory
tree is completely unchanged: same root, same `Size`, every `Get`
unchanged. -/
theorem put_wal_failure_leaves_tree_unchanged (db : KDB) (w : WALState)
    (key val : String) (now : Int) (hw : db.wal = some w)
    (hdup : db.checkIsDuplicateKey key = false) :
    (db.put key val now false).2 = (false, val) ∧
    (db.put key val now false).1.head = db.head ∧
    (db.put key val now false).1.size = db.size ∧
    ∀ k : String, (db.put key val now false).1.get k = db.get k := by
  simp [KDB.put, KDB.get, hdup, hw, WALState.log]

/-- Witness for C6 at the concrete store `c6Db` and key "b". -/
theorem put_wal_failure_leaves_tree_unchanged_witness :
    (c6Db.put "b" "v" 0 false).2 = (false, "v") ∧
    (c6Db.put "b" "v" 0 false).1.head = c6Db.head ∧
    (c6Db.put "b" "v" 0 false).1.size = c6Db.size :=
  have h := put_wal_failure_leaves_tree_unchanged c6Db ⟨[], 5⟩ "b" "v" 0 rfl (by decide)
  ⟨h.1, h.2.1, h.2.2.1⟩

/-- C8: after `Truncate`, the WAL file is empty and the sequence counter is
reset, so the next successful `Log` writes a record carrying sequence
number 1. -/
theorem truncate_resets_sequence_to_one (w : WALState) (op key value : String) (now : Int) :
    w.truncate.lines = [] ∧ w.truncate.seq = 0 ∧
    (w.truncate.log op key value now true).2 = true ∧
    (w.truncate.log op key value now true).1.lines
      = [.record ⟨1, op, key, value, now⟩] := by
  refine ⟨rfl, rfl, rfl, ?_⟩
  norm_num [WALState.truncate, WALState.log, wrap64]

/-- C10: "ab" and "bA" are distinct keys with equal hash; on an empty
store, `Put("ab","v1")` commits, `Put("bA","v2")` is rejected as a
duplicate, and `Get("bA")` reads back "v1". -/
theorem hash_collision_conflation :
    "ab" ≠ "bA" ∧
    HashStringToInt "ab" = HashStringToInt "bA" ∧
    c10S1.2 = (true, "v1") ∧
    c10S2.2 = (false, "v2") ∧
    c10S2.1.get "bA" = ("v1", true) := by decide

/-- The `Recover` scan with accumulator equals `filterMap unmarshalLine`. -/
theorem recoverLoop_eq (lines : List WALLine) :
    ∀ acc, recoverLoop lines acc = acc ++ lines.filterMap unmarshalLine := by
  induction lines with
  | nil => intro acc; simp [recoverLoop]
  | cons l rest ih =>
    intro acc
    cases h : unmarshalLine l <;>
      simp [recoverLoop, h, ih, List.filterMap_cons]

/-- C7: for every file content, `Recover` returns exactly the well-formed
records in file order with no error (malformed lines silently skipped),
and an absent file yields the empty sequence with no error. -/
theorem recover_skips_malformed_returns_wellformed (lines : List WALLine) :
    Recover (some lines) = .ok (lines.filterMap unmarshalLine) ∧
    Recover none = .ok ([] : List WALOperation) := by
  refine ⟨?_, rfl⟩
  simp [Recover, recoverLoop_eq]

/-- Folding `max` with a raised initial value hoists out the raise. -/
theorem foldr_max_init (L : List Int) (a s : Int) :
    L.foldr max (max a s) = max s (L.foldr max a) := by
  induction L with
  | nil => exact max_comm a s
  | cons x L ih => simpa [List.foldr, ih] using max_left_comm x s (L.foldr max a)

/-- The `getLastSequence` scan equals folding `max` over the well-formed
sequence numbers from the initial accumulator. -/
theorem getLastSequenceLoop_eq (lines : List WALLine) :
    ∀ acc, getLastSequenceLoop lines acc = (wfSeqs lines).foldr max acc := by
  induction lines with
  | nil => intro acc; simp [getLastSequenceLoop, wfSeqs]
  | cons l rest ih =>
    intro acc
    cases h : unmarshalLine l with
    | none => simp [getLastSequenceLoop, h, ih, wfSeqs, List.filterMap_cons]
    | some op =>
      have hif : (if op.seq > acc then op.seq else acc) = max acc op.seq := by
        rcases le_or_lt op.seq acc with hle | hlt
        · simp [not_lt.mpr hle, max_eq_left hle]
        · simp [hlt, max_eq_right hlt.le]
      simp only [getLastSequenceLoop, h, hif, ih, wfSeqs, List.filterMap_cons,
        List.map_cons, List.foldr_cons]
      exact foldr_max_init _ acc op.seq

/-- C9 (amended): opening a WAL on an existing file sets the counter to the
maximum of the well-formed sequence numbers and 0, so the first `Log`
assigns that maximum plus one (with 64-bit wraparound); in particular 1
when the file is empty or holds no well-formed record with a positive
sequence number. -/
theorem newWAL_first_log_seq_clamped (lines : List WALLine)
    (op key value : String) (now : Int) :
    ((NewWAL (some lines)).log op key value now true).2 = true ∧
    ((NewWAL (some lines)).log op key value now true).1.lines
      = lines ++ [.record ⟨wrap64 ((wfSeqs lines).foldr max 0 + 1), op, key, value, now⟩] := by
  refine ⟨rfl, ?_⟩
  simp [NewWAL, WALState.log, getLastSequenceLoop_eq]

/-- C9 counterexample: a file whose only well-formed record has sequence
number -1.  The claim as stated predicts the first `Log` assigns
`max(seq) + 1 = 0`; the code assigns 1, because `getLastSequence` never
lowers its accumulator below the zero value 0. -/
theorem newWAL_negative_seq_counterexample :
    wfSeqs c9Lines = [-1] ∧
    ((NewWAL (some c9Lines)).log "PUT" "a" "b" 0 true).1.lines
      = c9Lines ++ [.record ⟨1, "PUT", "a", "b", 0⟩] ∧
    (1 : Int) ≠ -1 + 1 := by decide


/-! ## Ordering lemmas -/

theorem mem_sortedInsert (k x : Int) : ∀ l : List Int,
    x ∈ sortedInsert k l ↔ x = k ∨ x ∈ l := by
  intro l
  induction l with
  | nil => simp [sortedInsert]
  | cons y ys ih =>
    by_cases h : k < y <;> simp [sortedInsert, h, ih] <;> tauto

theorem sortedInsert_perm (k : Int) : ∀ l : List Int,
    (sortedInsert k l).Perm (k :: l) := by
  intro l
  induction l with
  | nil => simp [sortedInsert]
  | cons y ys ih =>
    by_cases h : k < y
    · simp [sortedInsert, h]
    · simpa [sortedInsert, h] using ((ih.cons y).trans (List.Perm.swap k y ys))

theorem pairwise_sortedInsert (k : Int) : ∀ l : List Int,
    l.Pairwise (· < ·) → k ∉ l → (sortedInsert k l).Pairwise (· < ·) := by
  intro l
  induction l with
  | nil => intro _ _; simp [sortedInsert]
  | cons y ys ih =>
    intro hp hk
    rcases List.pairwise_cons.mp hp with ⟨hy, hys⟩
    by_cases h : k < y
    · simp only [sortedInsert, if_pos h]
      refine List.pairwise_cons.mpr ⟨?_, hp⟩
      intro z hz
      rcases List.mem_cons.mp hz with rfl | hz
      · exact h
      · exact h.trans (hy z hz)
    · have hky : y < k := by
        rcases lt_trichotomy k y with h' | h' | h'
        · exact absurd h' h
        · exact absurd (h' ▸ List.mem_cons_self k ys) hk
        · exact h'
      simp only [sortedInsert, if_neg h]
      refine List.pairwise_cons.mpr ⟨?_, ih hys (fun hm => hk (List.mem_cons_of_mem y hm))⟩
      intro z hz
      rcases (mem_sortedInsert k z ys).mp hz with rfl | hz
      · exact hky
      · exact hy z hz

theorem sortedInsert_append_lt (key k : Int) (B : List Int) : ∀ A : List Int,
    key < k → sortedInsert key (A ++ k :: B) = sortedInsert key A ++ k :: B := by
  intro A hk
  induction A with
  | nil => simp [sortedInsert, hk]
  | cons a A ih =>
    by_cases h : key < a <;> simp [sortedInsert, h, ih]

theorem sortedInsert_append_ge (key k : Int) (B : List Int) : ∀ A : List Int,
    (∀ a ∈ A, a < key) → k < key →
    sortedInsert key (A ++ k :: B) = A ++ k :: sortedInsert key B := by
  intro A hA hk
  induction A with
  | nil => simp [sortedInsert, not_lt.mpr hk.le]
  | cons a A ih =>
    have ha : a < key := hA a (List.mem_cons_self a A)
    simp only [List.cons_append, sortedInsert, not_lt.mpr ha.le, if_false, List.append_eq]
    rw [ih (fun x hx => hA x (List.mem_cons_of_mem a hx))]

theorem lbnd_trans {lo : Option Int} {a b : Int} (h : lbnd lo a) (hab : a < b) :
    lbnd lo b := by
  cases lo with
  | none => trivial
  | some l => exact lt_trans h hab

theorem ubnd_trans {hi : Option Int} {a b : Int} (hab : b < a) (h : ubnd hi a) :
    ubnd hi b := by
  cases hi with
  | none => trivial
  | some u => exact lt_trans hab h

/-! ## Unfolding helpers -/

theorem inorder_nil : inorder .nil = [] := rfl

theorem inorder_node1 (c1 : Node) (k1 : Int) (r1 : Option String) (c2 : Node)
    (k2 : Int) (r2 : Option String) (c3 : Node) (k3 : Int) (r3 : Option String)
    (c4 : Node) :
    inorder (.node c1 k1 r1 c2 k2 r2 c3 k3 r3 c4 1) = inorder c1 ++ k1 :: inorder c2 := rfl

theorem inorder_node2 (c1 : Node) (k1 : Int) (r1 : Option String) (c2 : Node)
    (k2 : Int) (r2 : Option String) (c3 : Node) (k3 : Int) (r3 : Option String)
    (c4 : Node) :
    inorder (.node c1 k1 r1 c2 k2 r2 c3 k3 r3 c4 2)
      = inorder c1 ++ k1 :: (inorder c2 ++ k2 :: inorder c3) := rfl

theorem inorder_node3 (c1 : Node) (k1 : Int) (r1 : Option String) (c2 : Node)
    (k2 : Int) (r2 : Option String) (c3 : Node) (k3 : Int) (r3 : Option String)
    (c4 : Node) :
    inorder (.node c1 k1 r1 c2 k2 r2 c3 k3 r3 c4 3)
      = inorder c1 ++ k1 :: (inorder c2 ++ k2 :: (inorder c3 ++ k3 :: inorder c4)) := rfl

theorem Inv_node1 (c1 : Node) (k1 : Int) (r1 : Option String) (c2 : Node)
    (k2 : Int) (r2 : Option String) (c3 : Node) (k3 : Int) (r3 : Option String)
    (c4 : Node) (lo hi : Option Int) :
    Inv (.node c1 k1 r1 c2 k2 r2 c3 k3 r3 c4 1) lo hi ↔
      lbnd lo k1 ∧ ubnd hi k1 ∧ Inv c1 lo (some k1) ∧ Inv c2 (some k1) hi
        ∧ c3 = .nil ∧ c4 = .nil := Iff.rfl

theorem Inv_node2 (c1 : Node) (k1 : Int) (r1 : Option String) (c2 : Node)
    (k2 : Int) (r2 : Option String) (c3 : Node) (k3 : Int) (r3 : Option String)
    (c4 : Node) (lo hi : Option Int) :
    Inv (.node c1 k1 r1 c2 k2 r2 c3 k3 r3 c4 2) lo hi ↔
      k1 < k2 ∧ lbnd lo k1 ∧ ubnd hi k2 ∧ Inv c1 lo (some k1)
        ∧ Inv c2 (some k1) (some k2) ∧ Inv c3 (some k2) hi ∧ c4 = .nil := Iff.rfl

theorem Inv_node3 (c1 : Node) (k1 : Int) (r1 : Option String) (c2 : Node)
    (k2 : Int) (r2 : Option String) (c3 : Node) (k3 : Int) (r3 : Option String)
    (c4 : Node) (lo hi : Option Int) :
    Inv (.node c1 k1 r1 c2 k2 r2 c3 k3 r3 c4 3) lo hi ↔
      k1 < k2 ∧ k2 < k3 ∧ lbnd lo k1 ∧ ubnd hi k3 ∧ Inv c1 lo (some k1)
        ∧ Inv c2 (some k1) (some k2) ∧ Inv c3 (some k2) (some k3)
        ∧ Inv c4 (some k3) hi := Iff.rfl

theorem Inv_nil (lo hi : Option Int) : Inv .nil lo hi := trivial

theorem isNil_iff (t : Node) : t.isNil = true ↔ t = .nil := by
  cases t <;> simp [Node.isNil]

theorem isLeaf_node_iff (c1 : Node) (k1 : Int) (r1 : Option String) (c2 : Node)
    (k2 : Int) (r2 : Option String) (c3 : Node) (k3 : Int) (r3 : Option String)
    (c4 : Node) (sz : Nat) :
    (Node.node c1 k1 r1 c2 k2 r2 c3 k3 r3 c4 sz).isLeaf = true ↔
      c1 = .nil ∧ c2 = .nil ∧ c3 = .nil ∧ c4 = .nil := by
  simp [Node.isLeaf, isNil_iff, and_assoc]

/-- Every element of the traversal of an ordered tree lies strictly between
the bounds. -/
theorem inorder_bounds (t : Node) : ∀ (lo hi : Option Int), Inv t lo hi →
    ∀ x ∈ inorder t, lbnd lo x ∧ ubnd hi x := by
  induction t with
  | nil => intro lo hi _ x hx; simp [inorder] at hx
  | node c1 k1 r1 c2 k2 r2 c3 k3 r3 c4 sz ih1 ih2 ih3 ih4 =>
    intro lo hi hInv x hx
    match sz with
    | 0 => exact absurd hInv id
    | 1 =>
      obtain ⟨hb1, hb2, hI1, hI2, _, _⟩ := (Inv_node1 ..).mp hInv
      rw [inorder_node1] at hx
      rcases List.mem_append.mp hx with hx | hx
      · obtain ⟨hl, hu⟩ := ih1 lo (some k1) hI1 x hx
        exact ⟨hl, ubnd_trans hu hb2⟩
      · rcases List.mem_cons.mp hx with rfl | hx
        · exact ⟨hb1, hb2⟩
        · obtain ⟨hl, hu⟩ := ih2 (some k1) hi hI2 x hx
          exact ⟨lbnd_trans hb1 hl, hu⟩
    | 2 =>
      obtain ⟨h12, hb1, hb2, hI1, hI2, hI3, _⟩ := (Inv_node2 ..).mp hInv
      rw [inorder_node2] at hx
      rcases List.mem_append.mp hx with hx | hx
      · obtain ⟨hl, hu⟩ := ih1 lo (some k1) hI1 x hx
        exact ⟨hl, ubnd_trans (lt_trans hu h12) hb2⟩
      · rcases List.mem_cons.mp hx with rfl | hx
        · exact ⟨hb1, ubnd_trans h12 hb2⟩
        · rcases List.mem_append.mp hx with hx | hx
          · obtain ⟨hl, hu⟩ := ih2 (some k1) (some k2) hI2 x hx
            exact ⟨lbnd_trans hb1 hl, ubnd_trans hu hb2⟩
          · rcases List.mem_cons.mp hx with rfl | hx
            · exact ⟨lbnd_trans hb1 h12, hb2⟩
            · obtain ⟨hl, hu⟩ := ih3 (some k2) hi hI3 x hx
              exact ⟨lbnd_trans hb1 (lt_trans h12 hl), hu⟩
    | 3 =>
      obtain ⟨h12, h23, hb1, hb3, hI1, hI2, hI3, hI4⟩ := (Inv_node3 ..).mp hInv
      rw [inorder_node3] at hx
      rcases List.mem_append.mp hx with hx | hx
      · obtain ⟨hl, hu⟩ := ih1 lo (some k1) hI1 x hx
        exact ⟨hl, ubnd_trans (lt_trans hu (lt_trans h12 h23)) hb3⟩
      · rcases List.mem_cons.mp hx with rfl | hx
        · exact ⟨hb1, ubnd_trans (lt_trans h12 h23) hb3⟩
        · rcases List.mem_append.mp hx with hx | hx
          · obtain ⟨hl, hu⟩ := ih2 (some k1) (some k2) hI2 x hx
            exact ⟨lbnd_trans hb1 hl, ubnd_trans (lt_trans hu h23) hb3⟩
          · rcases List.mem_cons.mp hx with rfl | hx
            · exact ⟨lbnd_trans hb1 h12, ubnd_trans h23 hb3⟩
            · rcases List.mem_append.mp hx with hx | hx
              · obtain ⟨hl, hu⟩ := ih3 (some k2) (some k3) hI3 x hx
                exact ⟨lbnd_trans hb1 (lt_trans h12 hl), ubnd_trans hu hb3⟩
              · rcases List.mem_cons.mp hx with rfl | hx
                · exact ⟨lbnd_trans hb1 (lt_trans h12 h23), hb3⟩
                · obtain ⟨hl, hu⟩ := ih4 (some k3) hi hI4 x hx
                  exact ⟨lbnd_trans hb1 (lt_trans h12 (lt_trans h23 hl)), hu⟩
    | (n + 4) => exact absurd hInv id


/-! ## Search soundness -/

/-- `searchKey` only ever returns a node after testing a stored key slot for
equality with the target, so a hash stored in no slot is never found. -/
theorem searchKey_not_mem (h : Int) : ∀ t : Node, h ∉ allKeys t → searchKey t h = none := by
  intro t
  induction t with
  | nil => intro _; rfl
  | node c1 k1 r1 c2 k2 r2 c3 k3 r3 c4 sz ih1 ih2 ih3 ih4 =>
    intro hmem
    have hk1 : ¬(1 ≤ sz ∧ k1 = h) := fun ⟨hs, he⟩ => hmem (by simp [allKeys, hs, he])
    have hk2 : ¬(2 ≤ sz ∧ k2 = h) := fun ⟨hs, he⟩ => hmem (by simp [allKeys, hs, he])
    have hk3 : ¬(3 ≤ sz ∧ k3 = h) := fun ⟨hs, he⟩ => hmem (by simp [allKeys, hs, he])
    have hs1 : h ∉ allKeys c1 := fun hc => hmem (by simp [allKeys, List.mem_append, hc])
    have hs2 : h ∉ allKeys c2 := fun hc => hmem (by simp [allKeys, List.mem_append, hc])
    have hs3 : h ∉ allKeys c3 := fun hc => hmem (by simp [allKeys, List.mem_append, hc])
    have hs4 : h ∉ allKeys c4 := fun hc => hmem (by simp [allKeys, List.mem_append, hc])
    simp only [searchKey]
    split_ifs
    · exact ih1 hs1
    · exact ih2 hs2
    · exact ih3 hs3
    · exact ih4 hs4

/-- On an ordered tree, the stored keys are exactly the traversal keys. -/
theorem mem_allKeys_iff (x : Int) : ∀ (t : Node) (lo hi : Option Int), Inv t lo hi →
    (x ∈ allKeys t ↔ x ∈ inorder t) := by
  intro t
  induction t with
  | nil => intro lo hi _; simp [allKeys, inorder]
  | node c1 k1 r1 c2 k2 r2 c3 k3 r3 c4 sz ih1 ih2 ih3 ih4 =>
    intro lo hi hInv
    match sz with
    | 0 => exact absurd hInv id
    | 1 =>
      obtain ⟨_, _, hI1, hI2, hc3, hc4⟩ := (Inv_node1 ..).mp hInv
      subst hc3; subst hc4
      rw [inorder_node1]
      simp [allKeys, ih1 _ _ hI1, ih2 _ _ hI2, List.mem_append]
      tauto
    | 2 =>
      obtain ⟨_, _, _, hI1, hI2, hI3, hc4⟩ := (Inv_node2 ..).mp hInv
      subst hc4
      rw [inorder_node2]
      simp [allKeys, ih1 _ _ hI1, ih2 _ _ hI2, ih3 _ _ hI3, List.mem_append]
      tauto
    | 3 =>
      obtain ⟨_, _, _, _, hI1, hI2, hI3, hI4⟩ := (Inv_node3 ..).mp hInv
      rw [inorder_node3]
      simp [allKeys, ih1 _ _ hI1, ih2 _ _ hI2, ih3 _ _ hI3, ih4 _ _ hI4, List.mem_append]
      tauto
    | (n + 4) => exact absurd hInv id

/-! ## Evaluation lemmas for the split helpers -/

theorem sort4_eval_pos1 (k1 k2 k3 kd : Int) (r1 r2 r3 rd : Option String)
    (h12 : k1 < k2) (h23 : k2 < k3) (hd : kd < k1) :
    sort4 (k1,r1) (k2,r2) (k3,r3) (kd,rd) = ((kd,rd),(k1,r1),(k2,r2),(k3,r3)) := by
  simp only [sort4]
  split_ifs <;> first | rfl | (dsimp only at *; omega)

theorem sort4_eval_pos2 (k1 k2 k3 kd : Int) (r1 r2 r3 rd : Option String)
    (h1d : k1 < kd) (hd2 : kd < k2) (h23 : k2 < k3) :
    sort4 (k1,r1) (k2,r2) (k3,r3) (kd,rd) = ((k1,r1),(kd,rd),(k2,r2),(k3,r3)) := by
  simp only [sort4]
  split_ifs <;> first | rfl | (dsimp only at *; omega)

theorem sort4_eval_pos3 (k1 k2 k3 kd : Int) (r1 r2 r3 rd : Option String)
    (h12 : k1 < k2) (h2d : k2 < kd) (hd3 : kd < k3) :
    sort4 (k1,r1) (k2,r2) (k3,r3) (kd,rd) = ((k1,r1),(k2,r2),(kd,rd),(k3,r3)) := by
  simp only [sort4]
  split_ifs <;> first | rfl | (dsimp only at *; omega)

theorem sort4_eval_pos4 (k1 k2 k3 kd : Int) (r1 r2 r3 rd : Option String)
    (h12 : k1 < k2) (h23 : k2 < k3) (h3d : k3 < kd) :
    sort4 (k1,r1) (k2,r2) (k3,r3) (kd,rd) = ((k1,r1),(k2,r2),(k3,r3),(kd,rd)) := by
  simp only [sort4]
  split_ifs <;> first | rfl | (dsimp only at *; omega)

theorem ipk_1_0 (c1 c2 c3 c4 nr : Node) (k1 k2 k3 pk : Int)
    (r1 r2 r3 pv : Option String) :
    insertPromotedKey (.node c1 k1 r1 c2 k2 r2 c3 k3 r3 c4 1) pk pv nr 0
      = .node c1 pk pv nr k1 r1 c2 k3 r3 c4 2 := rfl

theorem ipk_1_1 (c1 c2 c3 c4 nr : Node) (k1 k2 k3 pk : Int)
    (r1 r2 r3 pv : Option String) :
    insertPromotedKey (.node c1 k1 r1 c2 k2 r2 c3 k3 r3 c4 1) pk pv nr 1
      = .node c1 k1 r1 c2 pk pv nr k3 r3 c4 2 := rfl

theorem ipk_2_0 (c1 c2 c3 c4 nr : Node) (k1 k2 k3 pk : Int)
    (r1 r2 r3 pv : Option String) :
    insertPromotedKey (.node c1 k1 r1 c2 k2 r2 c3 k3 r3 c4 2) pk pv nr 0
      = .node c1 pk pv nr k1 r1 c2 k2 r2 c3 3 := rfl

theorem ipk_2_1 (c1 c2 c3 c4 nr : Node) (k1 k2 k3 pk : Int)
    (r1 r2 r3 pv : Option String) :
    insertPromotedKey (.node c1 k1 r1 c2 k2 r2 c3 k3 r3 c4 2) pk pv nr 1
      = .node c1 k1 r1 c2 pk pv nr k2 r2 c3 3 := rfl

theorem ipk_2_2 (c1 c2 c3 c4 nr : Node) (k1 k2 k3 pk : Int)
    (r1 r2 r3 pv : Option String) :
    insertPromotedKey (.node c1 k1 r1 c2 k2 r2 c3 k3 r3 c4 2) pk pv nr 2
      = .node c1 k1 r1 c2 k2 r2 c3 pk pv nr 3 := rfl

/-- Splitting a full leaf satisfies the `insertKey` contract. -/
theorem splitNode_leaf_spec (k1 k2 k3 key : Int) (r1 r2 r3 val : Option String)
    (lo hi : Option Int)
    (h12 : k1 < k2) (h23 : k2 < k3) (hlo : lbnd lo k1) (hhi : ubnd hi k3)
    (hklo : lbnd lo key) (hkhi : ubnd hi key)
    (hne1 : key ≠ k1) (hne2 : key ≠ k2) (hne3 : key ≠ k3) :
    InsOk (.node .nil k1 r1 .nil k2 r2 .nil k3 r3 .nil 3) lo hi key
      ((splitNode (.node .nil k1 r1 .nil k2 r2 .nil k3 r3 .nil 3) key val .nil none).1,
       (splitNode (.node .nil k1 r1 .nil k2 r2 .nil k3 r3 .nil 3) key val .nil none).2, 1) := by
  rcases lt_trichotomy key k1 with hc1 | hc1 | hc1
  · unfold InsOk splitNode
    dsimp only
    rw [sort4_eval_pos1 k1 k2 k3 key r1 r2 r3 val h12 h23 hc1]
    dsimp only
    refine Or.inr ⟨rfl, hlo, ubnd_trans (h12.trans h23) hhi, ?_, ?_, ?_⟩
    · exact (Inv_node1 ..).mpr ⟨hklo, hc1, trivial, trivial, rfl, rfl⟩
    · exact (Inv_node2 ..).mpr ⟨h23, h12, hhi, trivial, trivial, trivial, rfl⟩
    · simp [inorder_node1, inorder_node2, inorder_node3, inorder_nil, sortedInsert, hc1]
  · exact absurd hc1.symm hne1.symm
  · rcases lt_trichotomy key k2 with hc2 | hc2 | hc2
    · unfold InsOk splitNode
      dsimp only
      rw [sort4_eval_pos2 k1 k2 k3 key r1 r2 r3 val hc1 hc2 h23]
      dsimp only
      refine Or.inr ⟨rfl, lbnd_trans hlo hc1, ubnd_trans (hc2.trans h23) hhi, ?_, ?_, ?_⟩
      · exact (Inv_node1 ..).mpr ⟨hlo, hc1, trivial, trivial, rfl, rfl⟩
      · exact (Inv_node2 ..).mpr ⟨h23, hc2, hhi, trivial, trivial, trivial, rfl⟩
      · simp [inorder_node1, inorder_node2, inorder_node3, inorder_nil, sortedInsert,
          hc2, not_lt.mpr hc1.le]
    · exact absurd hc2.symm hne2.symm
    · rcases lt_trichotomy key k3 with hc3 | hc3 | hc3
      · unfold InsOk splitNode
        dsimp only
        rw [sort4_eval_pos3 k1 k2 k3 key r1 r2 r3 val h12 hc2 hc3]
        dsimp only
        refine Or.inr ⟨rfl, lbnd_trans hlo h12, ubnd_trans h23 hhi, ?_, ?_, ?_⟩
        · exact (Inv_node1 ..).mpr ⟨hlo, h12, trivial, trivial, rfl, rfl⟩
        · exact (Inv_node2 ..).mpr ⟨hc3, hc2, hhi, trivial, trivial, trivial, rfl⟩
        · simp [inorder_node1, inorder_node2, inorder_node3, inorder_nil, sortedInsert,
            hc3, not_lt.mpr hc1.le, not_lt.mpr hc2.le]
      · exact absurd hc3.symm hne3.symm
      · unfold InsOk splitNode
        dsimp only
        rw [sort4_eval_pos4 k1 k2 k3 key r1 r2 r3 val h12 h23 hc3]
        dsimp only
        refine Or.inr ⟨rfl, lbnd_trans hlo h12, ubnd_trans h23 hhi, ?_, ?_, ?_⟩
        · exact (Inv_node1 ..).mpr ⟨hlo, h12, trivial, trivial, rfl, rfl⟩
        · exact (Inv_node2 ..).mpr ⟨hc3, h23, hkhi, trivial, trivial, trivial, rfl⟩
        · simp [inorder_node1, inorder_node2, inorder_node3, inorder_nil, sortedInsert,
            not_lt.mpr hc1.le, not_lt.mpr hc2.le, not_lt.mpr hc3.le]

/-- Splitting a full internal node after a promotion out of child 0. -/
theorem splitNode_int0_spec (a1 nr a2 a3 a4 : Node) (k1 k2 k3 pk : Int)
    (r1 r2 r3 pv : Option String) (lo hi : Option Int)
    (h12 : k1 < k2) (h23 : k2 < k3) (hlo : lbnd lo k1) (hhi : ubnd hi k3)
    (hplo : lbnd lo pk) (hpk1 : pk < k1)
    (hI1 : Inv a1 lo (some pk)) (hInr : Inv nr (some pk) (some k1))
    (hI2 : Inv a2 (some k1) (some k2)) (hI3 : Inv a3 (some k2) (some k3))
    (hI4 : Inv a4 (some k3) hi) :
    let p := splitNode (.node a1 k1 r1 a2 k2 r2 a3 k3 r3 a4 3) pk pv nr (some 0)
    p.2.promoted = true ∧ p.2.promotedKey = k1 ∧
    lbnd lo p.2.promotedKey ∧ ubnd hi p.2.promotedKey ∧
    Inv p.1 lo (some p.2.promotedKey) ∧ Inv p.2.newRight (some p.2.promotedKey) hi ∧
    inorder p.1 = inorder a1 ++ pk :: inorder nr ∧
    inorder p.2.newRight = inorder a2 ++ k2 :: (inorder a3 ++ k3 :: inorder a4) := by
  unfold splitNode
  dsimp only
  rw [sort4_eval_pos1 k1 k2 k3 pk r1 r2 r3 pv h12 h23 hpk1]
  dsimp only
  refine ⟨rfl, rfl, hlo, ubnd_trans (h12.trans h23) hhi, ?_, ?_, ?_, ?_⟩
  · exact (Inv_node1 ..).mpr ⟨hplo, hpk1, hI1, hInr, rfl, rfl⟩
  · exact (Inv_node2 ..).mpr ⟨h23, h12, hhi, hI2, hI3, hI4, rfl⟩
  · exact inorder_node1 ..
  · exact inorder_node2 ..

/-- Splitting a full internal node after a promotion out of child 1. -/
theorem splitNode_int1_spec (a1 a2 nr a3 a4 : Node) (k1 k2 k3 pk : Int)
    (r1 r2 r3 pv : Option String) (lo hi : Option Int)
    (h12 : k1 < k2) (h23 : k2 < k3) (hlo : lbnd lo k1) (hhi : ubnd hi k3)
    (h1p : k1 < pk) (hp2 : pk < k2)
    (hI1 : Inv a1 lo (some k1)) (hI2 : Inv a2 (some k1) (some pk))
    (hInr : Inv nr (some pk) (some k2)) (hI3 : Inv a3 (some k2) (some k3))
    (hI4 : Inv a4 (some k3) hi) :
    let p := splitNode (.node a1 k1 r1 a2 k2 r2 a3 k3 r3 a4 3) pk pv nr (some 1)
    p.2.promoted = true ∧ p.2.promotedKey = pk ∧
    lbnd lo p.2.promotedKey ∧ ubnd hi p.2.promotedKey ∧
    Inv p.1 lo (some p.2.promotedKey) ∧ Inv p.2.newRight (some p.2.promotedKey) hi ∧
    inorder p.1 = inorder a1 ++ k1 :: inorder a2 ∧
    inorder p.2.newRight = inorder nr ++ k2 :: (inorder a3 ++ k3 :: inorder a4) := by
  unfold splitNode
  dsimp only
  rw [sort4_eval_pos2 k1 k2 k3 pk r1 r2 r3 pv h1p hp2 h23]
  dsimp only
  refine ⟨rfl, rfl, lbnd_trans hlo h1p, ubnd_trans (hp2.trans h23) hhi, ?_, ?_, ?_, ?_⟩
  · exact (Inv_node1 ..).mpr ⟨hlo, h1p, hI1, hI2, rfl, rfl⟩
  · exact (Inv_node2 ..).mpr ⟨h23, hp2, hhi, hInr, hI3, hI4, rfl⟩
  · exact inorder_node1 ..
  · exact inorder_node2 ..

/-- Splitting a full internal node after a promotion out of child 2. -/
theorem splitNode_int2_spec (a1 a2 a3 nr a4 : Node) (k1 k2 k3 pk : Int)
    (r1 r2 r3 pv : Option String) (lo hi : Option Int)
    (h12 : k1 < k2) (h23 : k2 < k3) (hlo : lbnd lo k1) (hhi : ubnd hi k3)
    (h2p : k2 < pk) (hp3 : pk < k3)
    (hI1 : Inv a1 lo (some k1)) (hI2 : Inv a2 (some k1) (some k2))
    (hI3 : Inv a3 (some k2) (some pk)) (hInr : Inv nr (some pk) (some k3))
    (hI4 : Inv a4 (some k3) hi) :
    let p := splitNode (.node a1 k1 r1 a2 k2 r2 a3 k3 r3 a4 3) pk pv nr (some 2)
    p.2.promoted = true ∧ p.2.promotedKey = k2 ∧
    lbnd lo p.2.promotedKey ∧ ubnd hi p.2.promotedKey ∧
    Inv p.1 lo (some p.2.promotedKey) ∧ Inv p.2.newRight (some p.2.promotedKey) hi ∧
    inorder p.1 = inorder a1 ++ k1 :: inorder a2 ∧
    inorder p.2.newRight = inorder a3 ++ pk :: (inorder nr ++ k3 :: inorder a4) := by
  unfold splitNode
  dsimp only
  rw [sort4_eval_pos3 k1 k2 k3 pk r1 r2 r3 pv h12 h2p hp3]
  dsimp only
  refine ⟨rfl, rfl, lbnd_trans hlo h12, ubnd_trans h23 hhi, ?_, ?_, ?_, ?_⟩
  · exact (Inv_node1 ..).mpr ⟨hlo, h12, hI1, hI2, rfl, rfl⟩
  · exact (Inv_node2 ..).mpr ⟨hp3, h2p, hhi, hI3, hInr, hI4, rfl⟩
  · exact inorder_node1 ..
  · exact inorder_node2 ..

/-- Splitting a full internal node after a promotion out of child 3. -/
theorem splitNode_int3_spec (a1 a2 a3 a4 nr : Node) (k1 k2 k3 pk : Int)
    (r1 r2 r3 pv : Option String) (lo hi : Option Int)
    (h12 : k1 < k2) (h23 : k2 < k3) (hlo : lbnd lo k1) (hphi : ubnd hi pk)
    (h3p : k3 < pk)
    (hI1 : Inv a1 lo (some k1)) (hI2 : Inv a2 (some k1) (some k2))
    (hI3 : Inv a3 (some k2) (some k3)) (hI4 : Inv a4 (some k3) (some pk))
    (hInr : Inv nr (some pk) hi) :
    let p := splitNode (.node a1 k1 r1 a2 k2 r2 a3 k3 r3 a4 3) pk pv nr (some 3)
    p.2.promoted = true ∧ p.2.promotedKey = k2 ∧
    lbnd lo p.2.promotedKey ∧ ubnd hi p.2.promotedKey ∧
    Inv p.1 lo (some p.2.promotedKey) ∧ Inv p.2.newRight (some p.2.promotedKey) hi ∧
    inorder p.1 = inorder a1 ++ k1 :: inorder a2 ∧
    inorder p.2.newRight = inorder a3 ++ k3 :: (inorder a4 ++ pk :: inorder nr) := by
  unfold splitNode
  dsimp only
  rw [sort4_eval_pos4 k1 k2 k3 pk r1 r2 r3 pv h12 h23 h3p]
  dsimp only
  refine ⟨rfl, rfl, lbnd_trans hlo h12, ubnd_trans (h23.trans h3p) hphi, ?_, ?_, ?_, ?_⟩
  · exact (Inv_node1 ..).mpr ⟨hlo, h12, hI1, hI2, rfl, rfl⟩
  · exact (Inv_node2 ..).mpr ⟨h3p, h23, hphi, hI3, hI4, hInr, rfl⟩
  · exact inorder_node1 ..
  · exact inorder_node2 ..


theorem ubnd_some {k a : Int} (h : ubnd (some k) a) : a < k := h

theorem lbnd_some {k a : Int} (h : lbnd (some k) a) : k < a := h

theorem Inv_leaf1 (key : Int) (val : Option String) (lo hi : Option Int)
    (h1 : lbnd lo key) (h2 : ubnd hi key) : Inv (leaf1 key val) lo hi :=
  (Inv_node1 ..).mpr ⟨h1, h2, trivial, trivial, rfl, rfl⟩

theorem inorder_leaf1 (key : Int) (val : Option String) :
    inorder (leaf1 key val) = [key] := rfl

/-- All traversal keys of a subtree below an upper bound stay below any
larger key. -/
theorem inorder_all_lt {t : Node} {lo : Option Int} {k key : Int}
    (hI : Inv t lo (some k)) (hk : k < key) : ∀ a ∈ inorder t, a < key :=
  fun a ha => lt_trans (ubnd_some (inorder_bounds t lo (some k) hI a ha).2) hk

theorem insertKey_spec (key : Int) (val : Option String) : ∀ (t : Node) (lo hi : Option Int),
    t ≠ .nil → Inv t lo hi → lbnd lo key → ubnd hi key → key ∉ inorder t →
    InsOk t lo hi key (insertKey t key val) := by
  intro t
  induction t with
  | nil => intro lo hi hne _ _ _ _; exact absurd rfl hne
  | node c1 k1 r1 c2 k2 r2 c3 k3 r3 c4 sz ih1 ih2 ih3 ih4 =>
    intro lo hi _ hInv hklo hkhi hmem
    by_cases hL : (Node.node c1 k1 r1 c2 k2 r2 c3 k3 r3 c4 sz).isLeaf = true
    · -- leaf node: all children nil
      obtain ⟨e1, e2, e3, e4⟩ := (isLeaf_node_iff ..).mp hL
      subst e1; subst e2; subst e3; subst e4
      match sz with
      | 0 => exact absurd hInv id
      | 1 =>
        obtain ⟨hb1, hb2, -, -, -, -⟩ := (Inv_node1 ..).mp hInv
        rw [inorder_node1] at hmem
        simp only [inorder_nil, List.nil_append, List.mem_cons, List.not_mem_nil,
          or_false] at hmem
        simp only [insertKey, hL, if_true, eq_self_iff_true]
        norm_num [insertKeyIntoNode]
        unfold InsOk
        rcases lt_trichotomy key k1 with hc | hc | hc
        · rw [if_pos hc]
          refine Or.inl ⟨rfl, ?_, ?_⟩
          · exact (Inv_node2 ..).mpr ⟨hc, hklo, hb2, Inv_nil _ _, Inv_nil _ _, Inv_nil _ _, rfl⟩
          · simp [inorder_node1, inorder_node2, inorder_nil, sortedInsert, hc]
        · exact absurd hc hmem
        · rw [if_neg (not_lt.mpr hc.le)]
          refine Or.inl ⟨rfl, ?_, ?_⟩
          · exact (Inv_node2 ..).mpr ⟨hc, hb1, hkhi, Inv_nil _ _, Inv_nil _ _, Inv_nil _ _, rfl⟩
          · simp [inorder_node1, inorder_node2, inorder_nil, sortedInsert, hc,
              not_lt.mpr hc.le]
      | 2 =>
        obtain ⟨h12, hb1, hb2, -, -, -, -⟩ := (Inv_node2 ..).mp hInv
        rw [inorder_node2] at hmem
        simp only [inorder_nil, List.nil_append, List.mem_cons, List.not_mem_nil,
          or_false, not_or] at hmem
        obtain ⟨hm1, hm2⟩ := hmem
        simp only [insertKey, hL, if_true, eq_self_iff_true]
        norm_num [insertKeyIntoNode]
        unfold InsOk
        rcases lt_trichotomy key k1 with hc | hc | hc
        · rw [if_pos hc]
          refine Or.inl ⟨rfl, ?_, ?_⟩
          · exact (Inv_node3 ..).mpr ⟨hc, h12, hklo, hb2, Inv_nil _ _, Inv_nil _ _, Inv_nil _ _, Inv_nil _ _⟩
          · simp [inorder_node2, inorder_node3, inorder_nil, sortedInsert, hc]
        · exact absurd hc hm1
        · rw [if_neg (not_lt.mpr hc.le)]
          rcases lt_trichotomy key k2 with hc2 | hc2 | hc2
          · rw [if_pos hc2]
            refine Or.inl ⟨rfl, ?_, ?_⟩
            · exact (Inv_node3 ..).mpr ⟨hc, hc2, hb1, hb2, Inv_nil _ _, Inv_nil _ _, Inv_nil _ _, Inv_nil _ _⟩
            · simp [inorder_node2, inorder_node3, inorder_nil, sortedInsert, hc2,
                not_lt.mpr hc.le]
          · exact absurd hc2 hm2
          · rw [if_neg (not_lt.mpr hc2.le)]
            refine Or.inl ⟨rfl, ?_, ?_⟩
            · exact (Inv_node3 ..).mpr ⟨h12, hc2, hb1, hkhi, Inv_nil _ _, Inv_nil _ _, Inv_nil _ _, Inv_nil _ _⟩
            · simp [inorder_node2, inorder_node3, inorder_nil, sortedInsert,
                not_lt.mpr hc.le, not_lt.mpr hc2.le]
      | 3 =>
        obtain ⟨h12, h23, hb1, hb3, -, -, -, -⟩ := (Inv_node3 ..).mp hInv
        rw [inorder_node3] at hmem
        simp only [inorder_nil, List.nil_append, List.mem_cons, List.not_mem_nil,
          or_false, not_or] at hmem
        obtain ⟨hm1, hm2, hm3⟩ := hmem
        simp only [insertKey, hL, if_true, eq_self_iff_true]
        norm_num
        exact splitNode_leaf_spec k1 k2 k3 key r1 r2 r3 val lo hi h12 h23 hb1 hb3
          hklo hkhi hm1 hm2 hm3
      | (n + 4) => exact absurd hInv id
    · -- internal node
      match sz with
      | 0 => exact absurd hInv id
      | 1 =>
        obtain ⟨hb1, hb2, hI1, hI2, hc3, hc4⟩ := (Inv_node1 ..).mp hInv
        rw [inorder_node1] at hmem
        simp only [List.mem_append, List.mem_cons, not_or] at hmem
        obtain ⟨hm1, hk1, hm2⟩ := hmem
        simp only [insertKey, hL, Bool.false_eq_true, if_false]
        rcases lt_trichotomy key k1 with hc | hc | hc
        · -- descend into cp1
          rw [if_pos hc]
          by_cases hn : c1 = .nil
          · subst hn
            rw [if_pos rfl]
            unfold InsOk
            refine Or.inl ⟨rfl, ?_, ?_⟩
            · exact (Inv_node1 ..).mpr ⟨hb1, hb2, Inv_leaf1 key val lo (some k1) hklo hc,
                hI2, hc3, hc4⟩
            · rw [inorder_node1, inorder_node1, inorder_leaf1, inorder_nil,
                sortedInsert_append_lt key k1 _ _ hc]
              rfl
          · rw [if_neg hn]
            have hins := ih1 lo (some k1) hn hI1 hklo hc hm1
            unfold InsOk at hins
            rcases hins with ⟨hp, hIn, hio⟩ | ⟨hp, hplo, hphi, hIL, hIR, hio⟩
            · rw [if_pos hp]
              unfold InsOk
              refine Or.inl ⟨rfl, ?_, ?_⟩
              · exact (Inv_node1 ..).mpr ⟨hb1, hb2, hIn, hI2, hc3, hc4⟩
              · rw [inorder_node1, inorder_node1,
                  sortedInsert_append_lt key k1 _ _ hc, hio]
            · rw [if_neg (by simp [hp]), if_pos (show (1:Nat) < 3 by norm_num), ipk_1_0]
              unfold InsOk
              refine Or.inl ⟨rfl, ?_, ?_⟩
              · exact (Inv_node2 ..).mpr ⟨hphi, hplo, hb2, hIL, hIR, hI2, hc4⟩
              · rw [inorder_node2, inorder_node1,
                  sortedInsert_append_lt key k1 _ _ hc, ← hio]
                simp [List.append_assoc]
        · exact absurd hc hk1
        · -- descend into cp2
          have hc' : k1 < key := hc
          rw [if_neg (not_lt.mpr hc'.le), if_pos (show True ∨ key < k2 from Or.inl trivial)]
          by_cases hn : c2 = .nil
          · subst hn
            rw [if_pos rfl]
            unfold InsOk
            refine Or.inl ⟨rfl, ?_, ?_⟩
            · exact (Inv_node1 ..).mpr ⟨hb1, hb2, hI1,
                Inv_leaf1 key val (some k1) hi hc' hkhi, hc3, hc4⟩
            · rw [inorder_node1, inorder_node1, inorder_leaf1, inorder_nil,
                sortedInsert_append_ge key k1 _ _ (inorder_all_lt hI1 hc') hc']
              rfl
          · rw [if_neg hn]
            have hins := ih2 (some k1) hi hn hI2 hc' hkhi hm2
            unfold InsOk at hins
            rcases hins with ⟨hp, hIn, hio⟩ | ⟨hp, hplo, hphi, hIL, hIR, hio⟩
            · rw [if_pos hp]
              unfold InsOk
              refine Or.inl ⟨rfl, ?_, ?_⟩
              · exact (Inv_node1 ..).mpr ⟨hb1, hb2, hI1, hIn, hc3, hc4⟩
              · rw [inorder_node1, inorder_node1,
                  sortedInsert_append_ge key k1 _ _ (inorder_all_lt hI1 hc') hc', hio]
            · rw [if_neg (by simp [hp]), if_pos (show (1:Nat) < 3 by norm_num), ipk_1_1]
              unfold InsOk
              refine Or.inl ⟨rfl, ?_, ?_⟩
              · exact (Inv_node2 ..).mpr ⟨hplo, hb1, hphi, hI1, hIL, hIR, hc4⟩
              · rw [inorder_node2, inorder_node1,
                  sortedInsert_append_ge key k1 _ _ (inorder_all_lt hI1 hc') hc', ← hio]
      | 2 =>
        obtain ⟨h12, hb1, hb2, hI1, hI2, hI3, hc4⟩ := (Inv_node2 ..).mp hInv
        rw [inorder_node2] at hmem
        simp only [List.mem_append, List.mem_cons, not_or] at hmem
        obtain ⟨hm1, hk1, hm2, hk2, hm3⟩ := hmem
        simp only [insertKey, hL, Bool.false_eq_true, if_false]
        rcases lt_trichotomy key k1 with hc1 | hc1 | hc1
        · rw [if_pos hc1]
          by_cases hn : c1 = .nil
          · subst hn
            rw [if_pos rfl]
            unfold InsOk
            refine Or.inl ⟨rfl, ?_, ?_⟩
            · exact (Inv_node2 ..).mpr ⟨h12, hb1, hb2,
                Inv_leaf1 key val lo (some k1) hklo hc1, hI2, hI3, hc4⟩
            · rw [inorder_node2, inorder_node2, inorder_leaf1, inorder_nil,
                sortedInsert_append_lt key k1 _ _ hc1]
              rfl
          · rw [if_neg hn]
            have hins := ih1 lo (some k1) hn hI1 hklo hc1 hm1
            unfold InsOk at hins
            rcases hins with ⟨hp, hIn, hio⟩ | ⟨hp, hplo, hphi, hIL, hIR, hio⟩
            · rw [if_pos hp]
              unfold InsOk
              refine Or.inl ⟨rfl, ?_, ?_⟩
              · exact (Inv_node2 ..).mpr ⟨h12, hb1, hb2, hIn, hI2, hI3, hc4⟩
              · rw [inorder_node2, inorder_node2,
                  sortedInsert_append_lt key k1 _ _ hc1, hio]
            · rw [if_neg (by simp [hp]), if_pos (show (2:Nat) < 3 by norm_num), ipk_2_0]
              unfold InsOk
              refine Or.inl ⟨rfl, ?_, ?_⟩
              · exact (Inv_node3 ..).mpr ⟨hphi, h12, hplo, hb2, hIL, hIR, hI2, hI3⟩
              · rw [inorder_node3, inorder_node2,
                  sortedInsert_append_lt key k1 _ _ hc1, ← hio]
                simp [List.append_assoc]
        · exact absurd hc1 hk1
        · have hc1' : k1 < key := hc1
          rw [if_neg (not_lt.mpr hc1'.le)]
          rcases lt_trichotomy key k2 with hc2 | hc2 | hc2
          · rw [if_pos (show (2:Nat) = 1 ∨ key < k2 from Or.inr hc2)]
            by_cases hn : c2 = .nil
            · subst hn
              rw [if_pos rfl]
              unfold InsOk
              refine Or.inl ⟨rfl, ?_, ?_⟩
              · exact (Inv_node2 ..).mpr ⟨h12, hb1, hb2, hI1,
                  Inv_leaf1 key val (some k1) (some k2) hc1' hc2, hI3, hc4⟩
              · rw [inorder_node2, inorder_node2, inorder_leaf1, inorder_nil,
                  sortedInsert_append_ge key k1 _ _ (inorder_all_lt hI1 hc1') hc1',
                  sortedInsert_append_lt key k2 _ _ hc2]
                rfl
            · rw [if_neg hn]
              have hins := ih2 (some k1) (some k2) hn hI2 hc1' hc2 hm2
              unfold InsOk at hins
              rcases hins with ⟨hp, hIn, hio⟩ | ⟨hp, hplo, hphi, hIL, hIR, hio⟩
              · rw [if_pos hp]
                unfold InsOk
                refine Or.inl ⟨rfl, ?_, ?_⟩
                · exact (Inv_node2 ..).mpr ⟨h12, hb1, hb2, hI1, hIn, hI3, hc4⟩
                · rw [inorder_node2, inorder_node2,
                    sortedInsert_append_ge key k1 _ _ (inorder_all_lt hI1 hc1') hc1',
                    sortedInsert_append_lt key k2 _ _ hc2, hio]
              · rw [if_neg (by simp [hp]), if_pos (show (2:Nat) < 3 by norm_num), ipk_2_1]
                unfold InsOk
                refine Or.inl ⟨rfl, ?_, ?_⟩
                · exact (Inv_node3 ..).mpr ⟨hplo, hphi, hb1, hb2, hI1, hIL, hIR, hI3⟩
                · rw [inorder_node3, inorder_node2,
                    sortedInsert_append_ge key k1 _ _ (inorder_all_lt hI1 hc1') hc1',
                    sortedInsert_append_lt key k2 _ _ hc2, ← hio]
                  simp [List.append_assoc]
          · exact absurd hc2 hk2
          · have hc2' : k2 < key := hc2
            rw [if_neg (show ¬((2:Nat) = 1 ∨ key < k2) by simp [not_lt.mpr hc2'.le]),
              if_pos (show True ∨ key < k3 from Or.inl trivial)]
            by_cases hn : c3 = .nil
            · subst hn
              rw [if_pos rfl]
              unfold InsOk
              refine Or.inl ⟨rfl, ?_, ?_⟩
              · exact (Inv_node2 ..).mpr ⟨h12, hb1, hb2, hI1, hI2,
                  Inv_leaf1 key val (some k2) hi hc2' hkhi, hc4⟩
              · rw [inorder_node2, inorder_node2, inorder_leaf1, inorder_nil,
                  sortedInsert_append_ge key k1 _ _ (inorder_all_lt hI1 (lt_trans h12 hc2')) hc1',
                  sortedInsert_append_ge key k2 _ _ (inorder_all_lt hI2 hc2') hc2']
                rfl
            · rw [if_neg hn]
              have hins := ih3 (some k2) hi hn hI3 hc2' hkhi hm3
              unfold InsOk at hins
              rcases hins with ⟨hp, hIn, hio⟩ | ⟨hp, hplo, hphi, hIL, hIR, hio⟩
              · rw [if_pos hp]
                unfold InsOk
                refine Or.inl ⟨rfl, ?_, ?_⟩
                · exact (Inv_node2 ..).mpr ⟨h12, hb1, hb2, hI1, hI2, hIn, hc4⟩
                · rw [inorder_node2, inorder_node2,
                    sortedInsert_append_ge key k1 _ _ (inorder_all_lt hI1 (lt_trans h12 hc2')) hc1',
                    sortedInsert_append_ge key k2 _ _ (inorder_all_lt hI2 hc2') hc2', hio]
              · rw [if_neg (by simp [hp]), if_pos (show (2:Nat) < 3 by norm_num), ipk_2_2]
                unfold InsOk
                refine Or.inl ⟨rfl, ?_, ?_⟩
                · exact (Inv_node3 ..).mpr ⟨h12, hplo, hb1, hphi, hI1, hI2, hIL, hIR⟩
                · rw [inorder_node3, inorder_node2,
                    sortedInsert_append_ge key k1 _ _ (inorder_all_lt hI1 (lt_trans h12 hc2')) hc1',
                    sortedInsert_append_ge key k2 _ _ (inorder_all_lt hI2 hc2') hc2', ← hio]
      | 3 =>
        obtain ⟨h12, h23, hb1, hb3, hI1, hI2, hI3, hI4⟩ := (Inv_node3 ..).mp hInv
        rw [inorder_node3] at hmem
        simp only [List.mem_append, List.mem_cons, not_or] at hmem
        obtain ⟨hm1, hk1, hm2, hk2, hm3, hk3, hm4⟩ := hmem
        simp only [insertKey, hL, Bool.false_eq_true, if_false]
        rcases lt_trichotomy key k1 with hc1 | hc1 | hc1
        · rw [if_pos hc1]
          by_cases hn : c1 = .nil
          · subst hn
            rw [if_pos rfl]
            unfold InsOk
            refine Or.inl ⟨rfl, ?_, ?_⟩
            · exact (Inv_node3 ..).mpr ⟨h12, h23, hb1, hb3,
                Inv_leaf1 key val lo (some k1) hklo hc1, hI2, hI3, hI4⟩
            · rw [inorder_node3, inorder_node3, inorder_leaf1, inorder_nil,
                sortedInsert_append_lt key k1 _ _ hc1]
              rfl
          · rw [if_neg hn]
            have hins := ih1 lo (some k1) hn hI1 hklo hc1 hm1
            unfold InsOk at hins
            rcases hins with ⟨hp, hIn, hio⟩ | ⟨hp, hplo, hphi, hIL, hIR, hio⟩
            · rw [if_pos hp]
              unfold InsOk
              refine Or.inl ⟨rfl, ?_, ?_⟩
              · exact (Inv_node3 ..).mpr ⟨h12, h23, hb1, hb3, hIn, hI2, hI3, hI4⟩
              · rw [inorder_node3, inorder_node3,
                  sortedInsert_append_lt key k1 _ _ hc1, hio]
            · rw [if_neg (by simp [hp]), if_neg (show ¬(3:Nat) < 3 by norm_num)]
              have hs := splitNode_int0_spec (insertKey c1 key val).1
                (insertKey c1 key val).2.1.newRight c2 c3 c4 k1 k2 k3
                (insertKey c1 key val).2.1.promotedKey r1 r2 r3
                (insertKey c1 key val).2.1.promotedVal lo hi h12 h23 hb1 hb3
                hplo hphi hIL hIR hI2 hI3 hI4
              obtain ⟨hsp, hspk, hsplo, hsphi, hsIL, hsIR, hsioL, hsioR⟩ := hs
              unfold InsOk
              refine Or.inr ⟨hsp, hsplo, hsphi, hsIL, hsIR, ?_⟩
              rw [hsioL, hsioR, hspk, inorder_node3,
                sortedInsert_append_lt key k1 _ _ hc1, ← hio]
        · exact absurd hc1 hk1
        · have hc1' : k1 < key := hc1
          rw [if_neg (not_lt.mpr hc1'.le)]
          rcases lt_trichotomy key k2 with hc2 | hc2 | hc2
          · rw [if_pos (show (3:Nat) = 1 ∨ key < k2 from Or.inr hc2)]
            by_cases hn : c2 = .nil
            · subst hn
              rw [if_pos rfl]
              unfold InsOk
              refine Or.inl ⟨rfl, ?_, ?_⟩
              · exact (Inv_node3 ..).mpr ⟨h12, h23, hb1, hb3, hI1,
                  Inv_leaf1 key val (some k1) (some k2) hc1' hc2, hI3, hI4⟩
              · rw [inorder_node3, inorder_node3, inorder_leaf1, inorder_nil,
                  sortedInsert_append_ge key k1 _ _ (inorder_all_lt hI1 hc1') hc1',
                  sortedInsert_append_lt key k2 _ _ hc2]
                rfl
            · rw [if_neg hn]
              have hins := ih2 (some k1) (some k2) hn hI2 hc1' hc2 hm2
              unfold InsOk at hins
              rcases hins with ⟨hp, hIn, hio⟩ | ⟨hp, hplo, hphi, hIL, hIR, hio⟩
              · rw [if_pos hp]
                unfold InsOk
                refine Or.inl ⟨rfl, ?_, ?_⟩
                · exact (Inv_node3 ..).mpr ⟨h12, h23, hb1, hb3, hI1, hIn, hI3, hI4⟩
                · rw [inorder_node3, inorder_node3,
                    sortedInsert_append_ge key k1 _ _ (inorder_all_lt hI1 hc1') hc1',
                    sortedInsert_append_lt key k2 _ _ hc2, hio]
              · rw [if_neg (by simp [hp]), if_neg (show ¬(3:Nat) < 3 by norm_num)]
                have hs := splitNode_int1_spec c1 (insertKey c2 key val).1
                  (insertKey c2 key val).2.1.newRight c3 c4 k1 k2 k3
                  (insertKey c2 key val).2.1.promotedKey r1 r2 r3
                  (insertKey c2 key val).2.1.promotedVal lo hi h12 h23 hb1 hb3
                  hplo hphi hI1 hIL hIR hI3 hI4
                obtain ⟨hsp, hspk, hsplo, hsphi, hsIL, hsIR, hsioL, hsioR⟩ := hs
                unfold InsOk
                refine Or.inr ⟨hsp, hsplo, hsphi, hsIL, hsIR, ?_⟩
                rw [hsioL, hsioR, hspk, inorder_node3,
                  sortedInsert_append_ge key k1 _ _ (inorder_all_lt hI1 hc1') hc1',
                  sortedInsert_append_lt key k2 _ _ hc2, ← hio]
                simp [List.append_assoc]
          · exact absurd hc2 hk2
          · have hc2' : k2 < key := hc2
            rw [if_neg (show ¬((3:Nat) = 1 ∨ key < k2) by simp [not_lt.mpr hc2'.le])]
            rcases lt_trichotomy key k3 with hc3 | hc3 | hc3
            · rw [if_pos (show (3:Nat) = 2 ∨ key < k3 from Or.inr hc3)]
              by_cases hn : c3 = .nil
              · subst hn
                rw [if_pos rfl]
                unfold InsOk
                refine Or.inl ⟨rfl, ?_, ?_⟩
                · exact (Inv_node3 ..).mpr ⟨h12, h23, hb1, hb3, hI1, hI2,
                    Inv_leaf1 key val (some k2) (some k3) hc2' hc3, hI4⟩
                · rw [inorder_node3, inorder_node3, inorder_leaf1, inorder_nil,
                    sortedInsert_append_ge key k1 _ _ (inorder_all_lt hI1 (lt_trans h12 hc2')) hc1',
                    sortedInsert_append_ge key k2 _ _ (inorder_all_lt hI2 hc2') hc2',
                    sortedInsert_append_lt key k3 _ _ hc3]
                  rfl
              · rw [if_neg hn]
                have hins := ih3 (some k2) (some k3) hn hI3 hc2' hc3 hm3
                unfold InsOk at hins
                rcases hins with ⟨hp, hIn, hio⟩ | ⟨hp, hplo, hphi, hIL, hIR, hio⟩
                · rw [if_pos hp]
                  unfold InsOk
                  refine Or.inl ⟨rfl, ?_, ?_⟩
                  · exact (Inv_node3 ..).mpr ⟨h12, h23, hb1, hb3, hI1, hI2, hIn, hI4⟩
                  · rw [inorder_node3, inorder_node3,
                      sortedInsert_append_ge key k1 _ _ (inorder_all_lt hI1 (lt_trans h12 hc2')) hc1',
                      sortedInsert_append_ge key k2 _ _ (inorder_all_lt hI2 hc2') hc2',
                      sortedInsert_append_lt key k3 _ _ hc3, hio]
                · rw [if_neg (by simp [hp]), if_neg (show ¬(3:Nat) < 3 by norm_num)]
                  have hs := splitNode_int2_spec c1 c2 (insertKey c3 key val).1
                    (insertKey c3 key val).2.1.newRight c4 k1 k2 k3
                    (insertKey c3 key val).2.1.promotedKey r1 r2 r3
                    (insertKey c3 key val).2.1.promotedVal lo hi h12 h23 hb1 hb3
                    hplo hphi hI1 hI2 hIL hIR hI4
                  obtain ⟨hsp, hspk, hsplo, hsphi, hsIL, hsIR, hsioL, hsioR⟩ := hs
                  unfold InsOk
                  refine Or.inr ⟨hsp, hsplo, hsphi, hsIL, hsIR, ?_⟩
                  rw [hsioL, hsioR, hspk, inorder_node3,
                    sortedInsert_append_ge key k1 _ _ (inorder_all_lt hI1 (lt_trans h12 hc2')) hc1',
                    sortedInsert_append_ge key k2 _ _ (inorder_all_lt hI2 hc2') hc2',
                    sortedInsert_append_lt key k3 _ _ hc3, ← hio]
                  simp [List.append_assoc]
            · exact absurd hc3 hk3
            · have hc3' : k3 < key := hc3
              have hkey1 : k1 < key := lt_trans h12 (lt_trans h23 hc3')
              have hkey2 : k2 < key := lt_trans h23 hc3'
              rw [if_neg (show ¬((3:Nat) = 2 ∨ key < k3) by simp [not_lt.mpr hc3'.le])]
              by_cases hn : c4 = .nil
              · subst hn
                rw [if_pos rfl]
                unfold InsOk
                refine Or.inl ⟨rfl, ?_, ?_⟩
                · exact (Inv_node3 ..).mpr ⟨h12, h23, hb1, hb3, hI1, hI2, hI3,
                    Inv_leaf1 key val (some k3) hi hc3' hkhi⟩
                · rw [inorder_node3, inorder_node3, inorder_leaf1, inorder_nil,
                    sortedInsert_append_ge key k1 _ _ (inorder_all_lt hI1 hkey1) hc1',
                    sortedInsert_append_ge key k2 _ _ (inorder_all_lt hI2 hkey2) hc2',
                    sortedInsert_append_ge key k3 _ _ (inorder_all_lt hI3 hc3') hc3']
                  rfl
              · rw [if_neg hn]
                have hins := ih4 (some k3) hi hn hI4 hc3' hkhi hm4
                unfold InsOk at hins
                rcases hins with ⟨hp, hIn, hio⟩ | ⟨hp, hplo, hphi, hIL, hIR, hio⟩
                · rw [if_pos hp]
                  unfold InsOk
                  refine Or.inl ⟨rfl, ?_, ?_⟩
                  · exact (Inv_node3 ..).mpr ⟨h12, h23, hb1, hb3, hI1, hI2, hI3, hIn⟩
                  · rw [inorder_node3, inorder_node3,
                      sortedInsert_append_ge key k1 _ _ (inorder_all_lt hI1 hkey1) hc1',
                      sortedInsert_append_ge key k2 _ _ (inorder_all_lt hI2 hkey2) hc2',
                      sortedInsert_append_ge key k3 _ _ (inorder_all_lt hI3 hc3') hc3', hio]
                · rw [if_neg (by simp [hp]), if_neg (show ¬(3:Nat) < 3 by norm_num)]
                  have hs := splitNode_int3_spec c1 c2 c3 (insertKey c4 key val).1
                    (insertKey c4 key val).2.1.newRight k1 k2 k3
                    (insertKey c4 key val).2.1.promotedKey r1 r2 r3
                    (insertKey c4 key val).2.1.promotedVal lo hi h12 h23 hb1 hphi
                    hplo hI1 hI2 hI3 hIL hIR
                  obtain ⟨hsp, hspk, hsplo, hsphi, hsIL, hsIR, hsioL, hsioR⟩ := hs
                  unfold InsOk
                  refine Or.inr ⟨hsp, hsplo, hsphi, hsIL, hsIR, ?_⟩
                  rw [hsioL, hsioR, hspk, inorder_node3,
                    sortedInsert_append_ge key k1 _ _ (inorder_all_lt hI1 hkey1) hc1',
                    sortedInsert_append_ge key k2 _ _ (inorder_all_lt hI2 hkey2) hc2',
                    sortedInsert_append_ge key k3 _ _ (inorder_all_lt hI3 hc3') hc3', ← hio]
                  simp [List.append_assoc]
      | (n + 4) => exact absurd hInv id


/-- `KDB.insert` preserves the ordering invariant and merges the key into
the traversal. -/
theorem insert_spec (db : KDB) (key : Int) (val : Option String)
    (hInv : Inv db.head none none) (hfresh : key ∉ inorder db.head) :
    Inv (db.insert key val).head none none ∧
    inorder (db.insert key val).head = sortedInsert key (inorder db.head) := by
  rcases db with ⟨head, size, wal⟩
  cases head with
  | nil =>
    exact ⟨Inv_leaf1 key val none none trivial trivial, rfl⟩
  | node c1 k1 r1 c2 k2 r2 c3 k3 r3 c4 sz =>
    have hins := insertKey_spec key val (.node c1 k1 r1 c2 k2 r2 c3 k3 r3 c4 sz)
      none none (by intro h; exact Node.noConfusion h) hInv trivial trivial hfresh
    unfold InsOk at hins
    simp only [KDB.insert]
    rcases hins with ⟨hp, hIn, hio⟩ | ⟨hp, hplo, hphi, hIL, hIR, hio⟩
    · rw [if_neg (by simp [hp])]
      exact ⟨hIn, hio⟩
    · rw [if_pos hp]
      refine ⟨(Inv_node1 ..).mpr ⟨trivial, trivial, hIL, hIR, rfl, rfl⟩, ?_⟩
      rw [inorder_node1, hio]

/-- A `Put` with a hash absent from an ordered tree commits and merges the
hash into the traversal (WAL attached or not, append succeeding). -/
theorem put_spec (db : KDB) (key val : String) (now : Int)
    (hInv : Inv db.head none none)
    (hfresh : HashStringToInt key ∉ inorder db.head) :
    (db.put key val now true).2 = (true, val) ∧
    Inv (db.put key val now true).1.head none none ∧
    inorder (db.put key val now true).1.head
      = sortedInsert (HashStringToInt key) (inorder db.head) := by
  have hdup : db.checkIsDuplicateKey key = false := by
    have hnm : HashStringToInt key ∉ allKeys db.head := fun hm =>
      hfresh ((mem_allKeys_iff _ _ _ _ hInv).mp hm)
    unfold KDB.checkIsDuplicateKey
    rw [searchKey_not_mem _ _ hnm]
    rfl
  rcases hw : db.wal with _ | w
  · refine ⟨?_, ?_, ?_⟩
    · simp [KDB.put, hdup, hw]
    · simp only [KDB.put, hdup, Bool.false_eq_true, if_false, hw]
      exact (insert_spec _ _ _ hInv hfresh).1
    · simp only [KDB.put, hdup, Bool.false_eq_true, if_false, hw]
      exact (insert_spec _ _ _ hInv hfresh).2
  · refine ⟨?_, ?_, ?_⟩
    · simp [KDB.put, hdup, hw, WALState.log]
    · simp only [KDB.put, hdup, Bool.false_eq_true, if_false, hw, WALState.log, if_true]
      exact (insert_spec ⟨db.head, db.size,
        some ⟨w.lines ++ [.record ⟨wrap64 (w.seq + 1), "PUT", key, val, now⟩],
          wrap64 (w.seq + 1)⟩⟩ _ _ hInv hfresh).1
    · simp only [KDB.put, hdup, Bool.false_eq_true, if_false, hw, WALState.log, if_true]
      exact (insert_spec ⟨db.head, db.size,
        some ⟨w.lines ++ [.record ⟨wrap64 (w.seq + 1), "PUT", key, val, now⟩],
          wrap64 (w.seq + 1)⟩⟩ _ _ hInv hfresh).2

/-- Driving `putAll` over keys with pairwise distinct hashes, all absent
from the store: every call commits, the invariant is preserved, and the
traversal is the fold of sorted insertions. -/
theorem putAll_spec : ∀ (kvs : List (String × String)) (db : KDB),
    Inv db.head none none →
    (kvs.map fun kv => HashStringToInt kv.1).Pairwise (· ≠ ·) →
    (∀ kv ∈ kvs, HashStringToInt kv.1 ∉ inorder db.head) →
    (putAll db kvs).2 = true ∧ Inv (putAll db kvs).1.head none none ∧
    inorder (putAll db kvs).1.head
      = kvs.foldl (fun l kv => sortedInsert (HashStringToInt kv.1) l) (inorder db.head) := by
  intro kvs
  induction kvs with
  | nil => intro db hInv _ _; exact ⟨rfl, hInv, rfl⟩
  | cons kv rest ih =>
    intro db hInv hdist hfresh
    obtain ⟨hr, hInv1, hio1⟩ := put_spec db kv.1 kv.2 0 hInv
      (hfresh kv (List.mem_cons_self _ _))
    rw [List.map_cons, List.pairwise_cons] at hdist
    obtain ⟨hne, hdistT⟩ := hdist
    have hfresh' : ∀ kv' ∈ rest,
        HashStringToInt kv'.1 ∉ inorder (db.put kv.1 kv.2 0 true).1.head := by
      intro kv' hkv' hmem
      rw [hio1] at hmem
      rcases (mem_sortedInsert _ _ _).mp hmem with heq | hmem'
      · exact hne (HashStringToInt kv'.1)
          (List.mem_map_of_mem _ hkv') heq.symm
      · exact hfresh kv' (List.mem_cons_of_mem _ hkv') hmem'
    obtain ⟨hr2, hInv2, hio2⟩ := ih (db.put kv.1 kv.2 0 true).1 hInv1 hdistT hfresh'
    simp only [putAll]
    refine ⟨?_, hInv2, ?_⟩
    · rw [hr2]
      rw [show (db.put kv.1 kv.2 0 true).2.1 = true from by rw [hr]]
      rfl
    · rw [List.foldl_cons, hio2, hio1]

/-- Folding sorted insertion of pairwise distinct fresh keys keeps the
list strictly sorted and permutes the accumulated keys. -/
theorem foldl_sortedInsert_spec : ∀ (ks : List Int) (acc : List Int),
    acc.Pairwise (· < ·) → ks.Pairwise (· ≠ ·) → (∀ k ∈ ks, k ∉ acc) →
    (ks.foldl (fun l k => sortedInsert k l) acc).Pairwise (· < ·) ∧
    (ks.foldl (fun l k => sortedInsert k l) acc).Perm (acc ++ ks) := by
  intro ks
  induction ks with
  | nil => intro acc h _ _; exact ⟨h, by simp⟩
  | cons k ks ih =>
    intro acc hacc hdist hfresh
    have hk : k ∉ acc := hfresh k (List.mem_cons_self _ _)
    have h1 : (sortedInsert k acc).Pairwise (· < ·) :=
      pairwise_sortedInsert k acc hacc hk
    rw [List.pairwise_cons] at hdist
    have hfresh' : ∀ k' ∈ ks, k' ∉ sortedInsert k acc := by
      intro k' hk' hmem
      rcases (mem_sortedInsert _ _ _).mp hmem with rfl | hmem'
      · exact hdist.1 k' hk' rfl
      · exact hfresh k' (List.mem_cons_of_mem _ hk') hmem'
    obtain ⟨hp, hperm⟩ := ih (sortedInsert k acc) h1 hdist.2 hfresh'
    rw [List.foldl_cons]
    refine ⟨hp, hperm.trans ?_⟩
    exact ((sortedInsert_perm k acc).append_right ks).trans List.perm_middle.symm

/-- C3 (amended): for all sequences of `Put` calls whose keys have pairwise
distinct hashes, every call commits and the in-order traversal of the
resulting tree lists the hashed keys in strictly increasing order. -/
theorem putAll_distinct_hashes_inorder_sorted (kvs : List (String × String))
    (hdist : (kvs.map fun kv => HashStringToInt kv.1).Pairwise (· ≠ ·)) :
    (putAll newKDB kvs).2 = true ∧
    List.Chain' (· < ·) (inorder (putAll newKDB kvs).1.head) ∧
    (inorder (putAll newKDB kvs).1.head).Perm
      (kvs.map fun kv => HashStringToInt kv.1) := by
  obtain ⟨hr, hInv, hio⟩ := putAll_spec kvs newKDB trivial hdist
    (by intro kv _ h; exact absurd h (List.not_mem_nil _))
  have hfold : kvs.foldl (fun l kv => sortedInsert (HashStringToInt kv.1) l)
      (inorder newKDB.head)
      = (kvs.map fun kv => HashStringToInt kv.1).foldl (fun l k => sortedInsert k l) [] := by
    rw [List.foldl_map]
    rfl
  obtain ⟨hp, hperm⟩ := foldl_sortedInsert_spec (kvs.map fun kv => HashStringToInt kv.1) []
    List.Pairwise.nil hdist (by intro k _ h; exact absurd h (List.not_mem_nil _))
  refine ⟨hr, ?_, ?_⟩
  · rw [hio, hfold, List.chain'_iff_pairwise]
    exact hp
  · rw [hio, hfold]
    simpa using hperm

/-- Witness for the amended C3 at two concrete keys with distinct hashes. -/
theorem putAll_distinct_hashes_inorder_sorted_witness :
    (putAll newKDB [("a", "1"), ("b", "2")]).2 = true ∧
    List.Chain' (· < ·) (inorder (putAll newKDB [("a", "1"), ("b", "2")]).1.head) ∧
    (inorder (putAll newKDB [("a", "1"), ("b", "2")]).1.head).Perm
      ([("a", "1"), ("b", "2")].map fun kv => HashStringToInt kv.1) :=
  putAll_distinct_hashes_inorder_sorted [("a", "1"), ("b", "2")] (by decide)

/-- C3 counterexample: the five keys of `c3Keys` are pairwise distinct
strings, every `Put` commits, yet the in-order traversal of the resulting
tree is not strictly increasing — "bA" hashes like "ab", the broken
duplicate check misses the stored hash, and a duplicate key enters the
tree. -/
theorem putAll_distinct_keys_unsorted_counterexample :
    (c3Keys.map Prod.fst).Pairwise (· ≠ ·) ∧
    (putAll newKDB c3Keys).2 = true ∧
    ¬ List.Chain' (· < ·) (inorder (putAll newKDB c3Keys).1.head) :=
  ⟨by decide, by decide, by rw [List.chain'_iff_pairwise]; decide⟩

end DB
